import Mathlib

/-!
Verification of the GridNavigator maze engine (src/src/App.tsx).

The development shallowly embeds the algorithmic core of the application:
the cell / grid data model, `getNeighbors`, `findStartEnd`, the `bfs` and
`dfs` solvers, the recursive-backtracker maze generator
`generatePerfectMaze`, and the animation scheduling performed by
`handleSolve`.  Stateful loops are embedded as fuel-indexed state-passing
functions; the fuel is always shown to be sufficient for the inputs the
theorems speak about.
-/

set_option maxHeartbeats 1000000
set_option maxRecDepth 10000


/-- Cell types, mirroring the `CellType` union of the source.  The source
variant `end` is spelled `endp` because `end` is a Lean keyword. -/
inductive CellType where
  | wall
  | passage
  | start
  | endp
  | visited
  | path
  | pathHead
deriving DecidableEq, Repr

/-- A grid cell: stored row, column and type, as in the source `Cell`. -/
structure Cell where
  row : Nat
  col : Nat
  type : CellType
deriving DecidableEq, Repr

/-- A position `{row, col}` (0-indexed grid coordinates). -/
structure Position where
  row : Nat
  col : Nat
deriving DecidableEq, Repr

/-- The grid: a sequence of rows of cells. -/
abbrev Grid := List (List Cell)

/-- SolveResult as in the source: an optional path plus the visit order. -/
structure SolveResult where
  path : Option (List Position)
  visitedOrder : List Position
deriving DecidableEq, Repr

/-- Number of rows of a grid (`grid.length`). -/
def rowsOf (g : Grid) : Nat := g.length

/-- Number of columns of a grid (`grid[0].length`). -/
def colsOf (g : Grid) : Nat := (g.headD []).length

/-- Look up the cell stored at row `r`, column `c`. -/
def cellAt (g : Grid) (r c : Nat) : Option Cell :=
  (g.get? r).bind (fun row => row.get? c)

/-- Type of the cell stored at row `r`, column `c`. -/
def typeAt (g : Grid) (r c : Nat) : Option CellType :=
  (cellAt g r c).map Cell.type

/-- The grid is rectangular: every row has the length of row 0, and it is
nonempty.  All grids produced by the generator satisfy this. -/
def Rect (g : Grid) : Prop :=
  g ≠ [] ∧ ∀ row ∈ g, row.length = colsOf g

/-- Stored coordinates agree with grid indices, as in every grid the
application builds. -/
def Coherent (g : Grid) : Prop :=
  ∀ r c cell, cellAt g r c = some cell → cell.row = r ∧ cell.col = c

instance : DecidablePred Rect := fun g => by
  unfold Rect; infer_instance

/-- The four neighbor deltas of `getNeighbors`, in source order:
up, down, left, right. -/
def deltas : List (Int × Int) := [(-1, 0), (1, 0), (0, -1), (0, 1)]

/-- `getNeighbors` from the source: in-bounds, non-wall neighbor positions
of `pos`, in the fixed order up, down, left, right. -/
def getNeighbors (g : Grid) (pos : Position) : List Position :=
  deltas.filterMap fun d =>
    let nr : Int := (pos.row : Int) + d.1
    let nc : Int := (pos.col : Int) + d.2
    if nr < 0 ∨ (rowsOf g : Int) ≤ nr ∨ nc < 0 ∨ (colsOf g : Int) ≤ nc then
      none
    else
      match cellAt g nr.toNat nc.toNat with
      | none => none
      | some cell =>
          if cell.type = CellType.wall then none
          else some ⟨nr.toNat, nc.toNat⟩

/-- One scan step of `findStartEnd`: remember the latest `start` and `end`
cells seen. -/
def scanCell (acc : Option Position × Option Position) (cell : Cell) :
    Option Position × Option Position :=
  ( if cell.type = CellType.start then some ⟨cell.row, cell.col⟩ else acc.1,
    if cell.type = CellType.endp then some ⟨cell.row, cell.col⟩ else acc.2 )

/-- `findStartEnd` from the source: scan every cell, keep the last `start`
and the last `end`; `none` models the thrown
"Maze must contain start and end" error. -/
def findStartEnd (g : Grid) : Option (Position × Position) :=
  match g.flatten.foldl scanCell (none, none) with
  | (some s, some e) => some (s, e)
  | _ => none

/-- Positions of the `start`-typed cells of a grid, in scan order. -/
def startCells (g : Grid) : List Position :=
  (g.flatten.filter (fun c => c.type = CellType.start)).map
    (fun c => ⟨c.row, c.col⟩)

/-- Positions of the `end`-typed cells of a grid, in scan order. -/
def endCells (g : Grid) : List Position :=
  (g.flatten.filter (fun c => c.type = CellType.endp)).map
    (fun c => ⟨c.row, c.col⟩)

/-! ## The solvers -/

/-- State of the BFS loop: the FIFO queue, the visited set (cells are
marked visited when enqueued), the parent map (`some none` models a stored
null parent, `none` models an absent key), and the dequeue order. -/
structure BfsSt where
  q : List Position
  vis : Finset Position
  par : Position → Option (Option Position)
  ord : List Position

/-- Processing of one neighbor `n` of the dequeued cell `cur` in `bfs`:
skip if already visited, otherwise mark visited, record the parent and
enqueue. -/
def bfsEnq (cur : Position) (acc : BfsSt) (n : Position) : BfsSt :=
  if n ∈ acc.vis then acc
  else
    { acc with
      vis := insert n acc.vis,
      par := fun p => if p = n then some (some cur) else acc.par p,
      q := acc.q ++ [n] }

/-- The BFS while-loop, fuel-indexed.  Each iteration dequeues, records the
cell in `visitedOrder`, stops if it is `e`, and otherwise enqueues the
unvisited neighbors in order. -/
def bfsLoop (g : Grid) (e : Position) : Nat → BfsSt → BfsSt
  | 0, st => st
  | fuel+1, st =>
    match st.q with
    | [] => st
    | cur :: qrest =>
      if cur = e then { st with q := qrest, ord := st.ord ++ [cur] }
      else
        bfsLoop g e fuel
          ((getNeighbors g cur).foldl (bfsEnq cur)
            { st with q := qrest, ord := st.ord ++ [cur] })

/-- Fuel that dominates the BFS loop: one more than the cell count. -/
def gridFuel (g : Grid) : Nat := rowsOf g * colsOf g + 1

/-- Reconstruction of the path by following parent pointers from `e`
(`while (cur) { path.push(cur); cur = parent.get(cur) ?? null }`),
producing the end-to-start chain. -/
def chainFrom (par : Position → Option (Option Position)) :
    Nat → Position → List Position
  | 0, cur => [cur]
  | fuel+1, cur =>
    match par cur with
    | some (some nxt) => cur :: chainFrom par fuel nxt
    | _ => [cur]

/-- `bfs` from the source.  `none` models the missing-endpoint error. -/
def bfs (g : Grid) : Option SolveResult :=
  match findStartEnd g with
  | none => none
  | some (s, e) =>
    let st := bfsLoop g e (gridFuel g)
      ⟨[s], {s}, (fun p => if p = s then some none else none), []⟩
    match st.par e with
    | none => some { path := none, visitedOrder := st.ord }
    | some _ =>
        some { path := some ((chainFrom st.par (gridFuel g) e).reverse),
               visitedOrder := st.ord }

/-- State of the DFS loop: the stack (head is the top), the visited set
(cells are marked when popped), the parent map and the pop order. -/
structure DfsSt where
  stack : List Position
  vis : Finset Position
  par : Position → Option (Option Position)
  ord : List Position

/-- Processing of one neighbor `n` of the popped cell `cur` in `dfs`: skip
if visited, otherwise record the parent only if `n` has none yet, and push. -/
def dfsPush (cur : Position) (acc : DfsSt) (n : Position) : DfsSt :=
  if n ∈ acc.vis then acc
  else
    { acc with
      par :=
        if acc.par n = none then
          fun p => if p = n then some (some cur) else acc.par p
        else acc.par,
      stack := n :: acc.stack }

/-- Neighbor expansion of `dfs`: the neighbors are pushed iterating the
enumeration in reverse (`for i = len-1 .. 0`). -/
def dfsExpand (g : Grid) (cur : Position) (st : DfsSt) : DfsSt :=
  ((getNeighbors g cur).reverse).foldl (dfsPush cur) st

/-- The DFS while-loop, fuel-indexed.  Pops the top of the stack, skips it
if already visited, otherwise marks it visited, records it, stops if it is
`e` and expands its neighbors otherwise. -/
def dfsLoop (g : Grid) (e : Position) : Nat → DfsSt → DfsSt
  | 0, st => st
  | fuel+1, st =>
    match st.stack with
    | [] => st
    | cur :: rest =>
      if cur ∈ st.vis then dfsLoop g e fuel { st with stack := rest }
      else
        if cur = e then
          { st with stack := rest, vis := insert cur st.vis,
                    ord := st.ord ++ [cur] }
        else
          dfsLoop g e fuel
            (dfsExpand g cur
              { st with stack := rest, vis := insert cur st.vis,
                        ord := st.ord ++ [cur] })

/-- Fuel that dominates the DFS loop (pops are bounded by pushes, and each
of the at most `rows*cols` processed cells pushes at most four others). -/
def dfsFuel (g : Grid) : Nat := 5 * (rowsOf g * colsOf g) + 2

/-- `dfs` from the source.  `none` models the missing-endpoint error. -/
def dfs (g : Grid) : Option SolveResult :=
  match findStartEnd g with
  | none => none
  | some (s, e) =>
    let st := dfsLoop g e (dfsFuel g)
      ⟨[s], ∅, (fun p => if p = s then some none else none), []⟩
    match st.par e with
    | none => some { path := none, visitedOrder := st.ord }
    | some _ =>
        some { path := some ((chainFrom st.par (gridFuel g) e).reverse),
               visitedOrder := st.ord }

/-! ## C2: when do the solvers fail -/

/-- A 1-by-3 grid with two `start` cells and one `end` cell. -/
def gTwoStarts : Grid :=
  [[⟨0, 0, CellType.start⟩, ⟨0, 1, CellType.start⟩, ⟨0, 2, CellType.endp⟩]]

/-! ## The animator -/

/-- Speed presets. -/
inductive Speed where
  | slow
  | normal
  | fast
deriving DecidableEq, Repr

/-- Base delay per speed: `speed === "slow" ? 40 : speed === "fast" ? 5 : 20`. -/
def baseDelayOf : Speed → Nat
  | Speed.slow => 40
  | Speed.fast => 5
  | Speed.normal => 20

/-- Cell update of one visited-playback step: cells whose key is in the
cumulative visited set become `visited`, unless they are `start`/`end` or
already advanced to `path`/`pathHead`. -/
def visitCellStep (vset : List Position) (cell : Cell) : Cell :=
  if cell.type ≠ CellType.start ∧ cell.type ≠ CellType.endp ∧
      (⟨cell.row, cell.col⟩ : Position) ∈ vset then
    if cell.type = CellType.path ∨ cell.type = CellType.pathHead then cell
    else { cell with type := CellType.visited }
  else cell

/-- Index assigned to a key by the source `keyToIndex` map: the map is
filled by a forward `forEach` of `set` calls, so the last occurrence wins. -/
def lastIdxOf (l : List Position) (x : Position) : Option Nat :=
  ((((List.range l.length).zip l).filter (fun pr => pr.2 = x)).getLast?).map
    Prod.fst

/-- Cell update of path-playback step `i`: the cell at path index `i`
becomes the `pathHead`, cells at smaller indices become trail `path`,
everything else (and `start`/`end`) is untouched. -/
def pathCellStep (pl : List Position) (i : Nat) (cell : Cell) : Cell :=
  if cell.type = CellType.start ∨ cell.type = CellType.endp then cell
  else
    match lastIdxOf pl ⟨cell.row, cell.col⟩ with
    | none => cell
    | some idx =>
        if idx = i then { cell with type := CellType.pathHead }
        else if idx < i then { cell with type := CellType.path }
        else cell

/-- Cell update of the finalize step: demote the final `pathHead` to
`path`. -/
def finalCellStep (cell : Cell) : Cell :=
  if cell.type = CellType.pathHead then { cell with type := CellType.path }
  else cell

/-- The three kinds of scheduled animation callbacks. -/
inductive AnimAct where
  | visitStep (i : Nat)
  | pathStep (i : Nat)
  | finalizeStep
deriving DecidableEq, Repr

/-- A scheduled callback: its fire time and its action. -/
structure AnimEvent where
  time : Nat
  act : AnimAct
deriving DecidableEq, Repr

/-- The callbacks scheduled by `handleSolve` for a solver result: nothing
when `path` is null; otherwise one visited mutation per visited index `i`
at time `baseDelay * i`, one path mutation per path index `i` at
`baseDelay * visitedOrder.length + baseDelay * i`, and the finalize
callback scheduled by the last path step `baseDelay * 2` later. -/
def solveEvents (res : SolveResult) (d : Nat) : List AnimEvent :=
  match res.path with
  | none => []
  | some p =>
      ((List.range res.visitedOrder.length).map
        (fun i => ⟨d * i, AnimAct.visitStep i⟩)) ++
      ((List.range p.length).map
        (fun i => ⟨d * res.visitedOrder.length + d * i, AnimAct.pathStep i⟩)) ++
      (if p = [] then []
       else [⟨d * res.visitedOrder.length + d * (p.length - 1) + d * 2,
              AnimAct.finalizeStep⟩])

/-- Animation state visible to the renderer: the grid snapshot and the
`isAnimating` flag. -/
structure AnimState where
  grid : Grid
  animating : Bool
deriving DecidableEq, Repr

/-- Effect of one fired callback on the animation state. -/
def applyAct (res : SolveResult) (a : AnimAct) (st : AnimState) : AnimState :=
  match a with
  | AnimAct.visitStep i =>
      { st with grid :=
          st.grid.map (List.map (visitCellStep (res.visitedOrder.take (i+1)))) }
  | AnimAct.pathStep i =>
      match res.path with
      | some p => { st with grid := st.grid.map (List.map (pathCellStep p i)) }
      | none => st
  | AnimAct.finalizeStep =>
      { grid := st.grid.map (List.map finalCellStep), animating := false }

/-- State after all callbacks scheduled at or before time `t` have fired,
starting from the working grid `g0`; `isAnimating` is set at solve time
exactly when a path was found. -/
def runTo (res : SolveResult) (d : Nat) (g0 : Grid) (t : Nat) : AnimState :=
  ((solveEvents res d).filter (fun ev => ev.time ≤ t)).foldl
    (fun st ev => applyAct res ev.act st) ⟨g0, (res.path).isSome⟩

/-! ## C7: animation mutations are monotone -/

/-- Rank of a cell type in the forward ordering
`passage → visited → path/pathHead` used during animation. -/
def typeRank : CellType → Nat
  | CellType.passage => 0
  | CellType.visited => 1
  | CellType.path => 2
  | CellType.pathHead => 2
  | _ => 0

/-- The scenario result of C8: `visitedOrder` of length 3, `path` of
length 2. -/
def resScenario : SolveResult :=
  ⟨some [⟨0, 0⟩, ⟨0, 1⟩], [⟨0, 0⟩, ⟨0, 1⟩, ⟨0, 2⟩]⟩

/-! ## The maze generator -/

/-- The direction array of `carveFrom`, pre-shuffle order
`[E, W, S, N]` = `[[0,1],[0,-1],[1,0],[-1,0]]`. -/
def dirs0 : List (Int × Int) := [(0, 1), (0, -1), (1, 0), (-1, 0)]

/-- Swap the entries at indices `i` and `j` of a list. -/
def listSwap {α : Type} (l : List α) (i j : Nat) : List α :=
  match l.get? i, l.get? j with
  | some a, some b => (l.set i b).set j a
  | _, _ => l

/-- The Fisher-Yates shuffle of the four directions
(`for i = 3..1, j = floor(random()*(i+1)), swap dirs[i] dirs[j]`); each
`Math.random()` draw `k` is modeled by `rng k`, reduced into range by
`% (i+1)`.  Returns the shuffled list and the advanced draw counter. -/
def shuffleDirs (rng : Nat → Nat) (ctr : Nat) : List (Int × Int) × Nat :=
  let l1 := listSwap dirs0 3 (rng ctr % 4)
  let l2 := listSwap l1 2 (rng (ctr + 1) % 3)
  let l3 := listSwap l2 1 (rng (ctr + 2) % 2)
  (l3, ctr + 3)

/-- Mutable state of the carver: the visited room set, the grid cell types
(the grid rows/cols of every cell are its indices) and the next random
draw index. -/
structure CarveSt where
  vis : Finset (Nat × Nat)
  cellT : Nat → Nat → CellType
  ctr : Nat

/-- Point update of the cell-type table. -/
def setT (f : Nat → Nat → CellType) (r c : Nat) (t : CellType) :
    Nat → Nat → CellType :=
  fun r' c' => if r' = r ∧ c' = c then t else f r' c'

/-- Entry action of `carveFrom`: mark the room visited and open its grid
cell `(2*mr+1, 2*mc+1)`. -/
def markRoom (st : CarveSt) (p : Nat × Nat) : CarveSt :=
  { st with
    vis := insert p st.vis,
    cellT := setT st.cellT (2 * p.1 + 1) (2 * p.2 + 1) CellType.passage }

/-- The recursive backtracker `carveFrom(mr, mc)`: mark the room, open its
cell, shuffle the four directions and, for each direction in shuffled
order, if the neighbor room is in bounds and unvisited, open the
connecting wall cell and recurse into it.  `fuel` bounds the recursion
depth; `R*C` is enough (shown below) since every call is on a
still-unvisited room. -/
def carveFrom (R C : Nat) (rng : Nat → Nat) :
    Nat → CarveSt → Nat × Nat → CarveSt
  | 0, st, _ => st
  | fuel+1, st, p =>
    let st1 := markRoom st p
    let sh := shuffleDirs rng st1.ctr
    (sh.1).foldl
      (fun acc d =>
        let nmr : Int := (p.1 : Int) + d.1
        let nmc : Int := (p.2 : Int) + d.2
        if 0 ≤ nmr ∧ nmr < (R : Int) ∧ 0 ≤ nmc ∧ nmc < (C : Int) ∧
            (nmr.toNat, nmc.toNat) ∉ acc.vis then
          carveFrom R C rng fuel
            { acc with
              cellT := setT acc.cellT ((2 * p.1 + 1 : Int) + d.1).toNat
                ((2 * p.2 + 1 : Int) + d.2).toNat CellType.passage }
            (nmr.toNat, nmc.toNat)
        else acc)
      { st1 with ctr := sh.2 }

/-- One iteration of the direction loop of `carveFrom`, with the recursive
carve call abstracted as `carve`. -/
def carveStep (R C : Nat) (carve : CarveSt → Nat × Nat → CarveSt)
    (p : Nat × Nat) (acc : CarveSt) (d : Int × Int) : CarveSt :=
  let nmr : Int := (p.1 : Int) + d.1
  let nmc : Int := (p.2 : Int) + d.2
  if 0 ≤ nmr ∧ nmr < (R : Int) ∧ 0 ≤ nmc ∧ nmc < (C : Int) ∧
      (nmr.toNat, nmc.toNat) ∉ acc.vis then
    carve
      { acc with
        cellT := setT acc.cellT ((2 * p.1 + 1 : Int) + d.1).toNat
          ((2 * p.2 + 1 : Int) + d.2).toNat CellType.passage }
      (nmr.toNat, nmc.toNat)
  else acc

/-- The direction loop of `carveFrom` as a fold of `carveStep`. -/
def carveDirs (R C : Nat) (rng : Nat → Nat) (fuel : Nat) (st : CarveSt)
    (p : Nat × Nat) (ds : List (Int × Int)) : CarveSt :=
  ds.foldl (carveStep R C (carveFrom R C rng fuel) p) st

/-- Clamping of a maze dimension: `Math.min(50, Math.max(5, x))`. -/
def clampDim (x : Int) : Nat := (min 50 (max 5 x)).toNat

/-- The initial carver state: everything a wall, nothing visited. -/
def initCarveSt : CarveSt := ⟨∅, fun _ _ => CellType.wall, 0⟩

/-- Materialization of a cell-type table into the grid of rows of cells,
as the source builds it (every cell stores its own indices). -/
def mkGrid (f : Nat → Nat → CellType) (rows cols : Nat) : Grid :=
  (List.range rows).map (fun r => (List.range cols).map (fun c => ⟨r, c, f r c⟩))

/-- `generatePerfectMaze` from the source: clamp the dimensions, build the
all-wall `(2R+1) x (2C+1)` grid, carve from room `(0,0)`, then force
`grid[1][0]` to `start` and `grid[rows-2][cols-1]` to `end`. -/
def generatePerfectMaze (rng : Nat → Nat) (mazeRows mazeCols : Int) : Grid :=
  let R := clampDim mazeRows
  let C := clampDim mazeCols
  let rows := 2 * R + 1
  let cols := 2 * C + 1
  let st := carveFrom R C rng (R * C) initCarveSt (0, 0)
  let f := setT (setT st.cellT 1 0 CellType.start)
    (rows - 2) (cols - 1) CellType.endp
  mkGrid f rows cols

/-- Every cell of the carver grid is a wall or a passage (the carver never
writes any other type). -/
def WallPass (st : CarveSt) : Prop :=
  ∀ r c, st.cellT r c = CellType.wall ∨ st.cellT r c = CellType.passage

/-! ## Walks and reachability -/

/-- All in-bounds positions of a grid. -/
def allPos (g : Grid) : Finset Position :=
  ((Finset.range (rowsOf g)) ×ˢ (Finset.range (colsOf g))).image
    (fun rc => ⟨rc.1, rc.2⟩)

/-- Boolean walk check: consecutive elements are grid neighbors. -/
def walkB (g : Grid) : List Position → Bool
  | [] => false
  | [_] => true
  | p :: q :: rest => decide (q ∈ getNeighbors g p) && walkB g (q :: rest)

/-- A walk from `s` to `t`: a nonempty chain of neighbor steps whose head
is `s` and whose last element is `t`.  Every element after the head is
automatically in bounds and non-wall (by the neighbor check); the head is
the start cell. -/
def WalkFrom (g : Grid) (s t : Position) (l : List Position) : Prop :=
  walkB g l = true ∧ l.head? = some s ∧ l.getLast? = some t

/-- `t` is reachable from `s` through non-wall cells. -/
def Reach (g : Grid) (s t : Position) : Prop := ∃ l, WalkFrom g s t l

/-- BFS loop invariant, with ghost level function `d` and current frontier
level `k`. -/
structure BfsInv (g : Grid) (s e : Position) (d : Position → Nat) (k : Nat)
    (st : BfsSt) : Prop where
  hsvis : s ∈ st.vis
  hds : d s = 0
  hvb : ∀ p ∈ st.vis, p ∈ allPos g
  hpdom : ∀ p, st.par p ≠ none ↔ p ∈ st.vis
  hps : st.par s = some none
  hchain : ∀ p ∈ st.vis, p ≠ s →
    ∃ u, st.par p = some (some u) ∧ u ∈ st.vis ∧ p ∈ getNeighbors g u ∧
      d p = d u + 1
  hqsub : ∀ p ∈ st.q, p ∈ st.vis
  hqnd : st.q.Nodup
  hqAB : ∃ A B, st.q = A ++ B ∧ (∀ a ∈ A, d a = k) ∧
    (∀ b ∈ B, d b = k + 1) ∧ (A = [] → B = [])
  hdeq : ∀ p ∈ st.vis, p ∉ st.q →
    d p ≤ k ∧ ∀ n ∈ getNeighbors g p, n ∈ st.vis ∧ d n ≤ d p + 1
  hmin : ∀ (t : Position) (l : List Position), WalkFrom g s t l →
    l.length ≤ k + 1 → t ∈ st.vis ∧ d t + 1 ≤ l.length
  hvd : ∀ p ∈ st.vis, d p ≤ k + 1
  hpart : ∀ p, p ∈ st.vis ↔ (p ∈ st.ord ∨ p ∈ st.q)
  hdisj : ∀ p ∈ st.ord, p ∉ st.q
  horde : e ∉ st.ord

/-- Facts about a finished BFS state that survive the early break. -/
structure BfsOut (g : Grid) (s : Position) (d : Position → Nat)
    (st : BfsSt) : Prop where
  hsvis : s ∈ st.vis
  hds : d s = 0
  hvb : ∀ p ∈ st.vis, p ∈ allPos g
  hpdom : ∀ p, st.par p ≠ none ↔ p ∈ st.vis
  hps : st.par s = some none
  hchain : ∀ p ∈ st.vis, p ≠ s →
    ∃ u, st.par p = some (some u) ∧ u ∈ st.vis ∧ p ∈ getNeighbors g u ∧
      d p = d u + 1
  hminabs : ∀ t ∈ st.vis, ∀ l, WalkFrom g s t l → d t + 1 ≤ l.length

/-- The BFS termination measure: queue length plus unvisited cell count. -/
def bfsMeasure (g : Grid) (st : BfsSt) : Nat :=
  st.q.length + ((allPos g).filter (fun p => p ∉ st.vis)).card

/-- Neighbor expansion of the BFS loop body. -/
def bfsExpand (g : Grid) (cur : Position) (st : BfsSt) : BfsSt :=
  (getNeighbors g cur).foldl (bfsEnq cur) st

/-- Decidable check that stored cell coordinates match grid indices. -/
def coherentB (g : Grid) : Bool :=
  (List.range (rowsOf g)).all fun r =>
    (List.range ((g.getD r []).length)).all fun c =>
      match (g.getD r []).get? c with
      | some cell => decide (cell.row = r ∧ cell.col = c)
      | none => true

/-- Witness grid for C1/C4: a 1-by-3 corridor. -/
def gCorridor : Grid :=
  [[⟨0, 0, CellType.start⟩, ⟨0, 1, CellType.passage⟩, ⟨0, 2, CellType.endp⟩]]

/-- DFS loop invariant. -/
structure DfsInv (g : Grid) (s e : Position) (st : DfsSt) : Prop where
  hvb : ∀ p ∈ st.vis, p ∈ allPos g
  hstkb : ∀ p ∈ st.stack, p ∈ allPos g
  hreachv : ∀ p ∈ st.vis, Reach g s p
  hreachs : ∀ p ∈ st.stack, Reach g s p
  hcl : ∀ p ∈ st.vis, ∀ n ∈ getNeighbors g p, n ∈ st.vis ∨ n ∈ st.stack
  hpar : ∀ p, st.par p ≠ none ↔ (p = s ∨ p ∈ st.vis ∨ p ∈ st.stack)
  hord : ∀ p, p ∈ st.ord ↔ p ∈ st.vis
  hsin : s ∈ st.vis ∨ s ∈ st.stack
  hev : e ∉ st.vis

/-- The DFS termination measure. -/
def dfsMeasure (g : Grid) (st : DfsSt) : Nat :=
  5 * ((allPos g).filter (fun p => p ∉ st.vis)).card + st.stack.length

/-! ## C5: the carved maze is a spanning tree of the room lattice -/

/-- Lattice adjacency of two rooms: they differ by one in exactly one
coordinate. -/
def AdjRooms (p q : Nat × Nat) : Prop :=
  (p.1 = q.1 ∧ (p.2 + 1 = q.2 ∨ q.2 + 1 = p.2)) ∨
  (p.2 = q.2 ∧ (p.1 + 1 = q.1 ∨ q.1 + 1 = p.1))

/-- The grid positions of the walls between two lattice-adjacent rooms of
an `R x C` room lattice: between horizontally adjacent rooms `(a, b)` and
`(a, b+1)` lies cell `(2a+1, 2b+2)`, between vertically adjacent rooms
`(a, b)` and `(a+1, b)` lies cell `(2a+2, 2b+1)`. -/
def midPositions (R C : Nat) : Finset (Nat × Nat) :=
  ((Finset.range R ×ˢ Finset.range (C - 1)).image
    (fun rc => (2 * rc.1 + 1, 2 * rc.2 + 2))) ∪
  ((Finset.range (R - 1) ×ˢ Finset.range C).image
    (fun rc => (2 * rc.1 + 2, 2 * rc.2 + 1)))

/-- The number of opened (passage) inter-room wall cells of a cell-type
table. -/
def openMids (R C : Nat) (f : Nat → Nat → CellType) : Nat :=
  ((midPositions R C).filter (fun w => f w.1 w.2 = CellType.passage)).card

/-- The number of in-bounds rooms not yet in the visited set. -/
def unvisRC (R C : Nat) (vis : Finset (Nat × Nat)) : Nat :=
  ((Finset.range R ×ˢ Finset.range C).filter (fun q => q ∉ vis)).card

/-- Every room visited after a carve call but not before it ends the call
with all of its in-bounds lattice neighbors visited. -/
def NewClosed (R C : Nat) (v0 v1 : Finset (Nat × Nat)) : Prop :=
  ∀ v ∈ v1, v ∉ v0 →
    ∀ q : Nat × Nat, AdjRooms v q → q.1 < R → q.2 < C → q ∈ v1

/-- Ghost invariant carried through the carver.  `pr` assigns to every
visited room other than the root `(0, 0)` the room it was carved from and
`rk` is a rank that strictly decreases along parent links; the opened
inter-room walls are exactly the parent edges, and their count is one
less than the number of visited rooms. -/
structure CarveInv (R C : Nat) (st : CarveSt)
    (pr : Nat × Nat → Option (Nat × Nat)) (rk : Nat × Nat → Nat) : Prop where
  hroot : (0, 0) ∈ st.vis
  hvsub : ∀ p ∈ st.vis, p.1 < R ∧ p.2 < C
  hopen : ∀ p q : Nat × Nat, AdjRooms p q → p.1 < R → p.2 < C → q.1 < R →
    q.2 < C → (st.cellT (p.1 + q.1 + 1) (p.2 + q.2 + 1) = CellType.passage ↔
      pr q = some p ∨ pr p = some q)
  hprv : ∀ q p : Nat × Nat, pr q = some p →
    q ∈ st.vis ∧ p ∈ st.vis ∧ AdjRooms p q ∧ rk p < rk q
  hprr : pr (0, 0) = none
  hprd : ∀ q ∈ st.vis, q ≠ (0, 0) → pr q ≠ none
  hpro : ∀ q : Nat × Nat, q ∉ st.vis → pr q = none
  hrkb : ∀ q ∈ st.vis, rk q < st.vis.card
  hcnt : openMids R C st.cellT + 1 = st.vis.card

/-- The room-adjacency graph of a grid over an `R x C` room lattice: two
rooms are adjacent iff they are lattice-adjacent and the grid cell between
them (rooms sit at odd-odd grid coordinates) is a passage. -/
def roomGraph (g : Grid) (R C : Nat) : SimpleGraph (Fin R × Fin C) where
  Adj a b := AdjRooms (a.1.1, a.2.1) (b.1.1, b.2.1) ∧
    typeAt g (a.1.1 + b.1.1 + 1) (a.2.1 + b.2.1 + 1) = some CellType.passage
  symm := by
    rintro a b ⟨h1, h2⟩
    refine ⟨?_, ?_⟩
    · simp only [AdjRooms] at h1 ⊢
      omega
    · have e1 : b.1.1 + a.1.1 + 1 = a.1.1 + b.1.1 + 1 := by omega
      have e2 : b.2.1 + a.2.1 + 1 = a.2.1 + b.2.1 + 1 := by omega
      rw [e1, e2]
      exact h2
  loopless := by
    rintro a ⟨h1, _⟩
    simp only [AdjRooms] at h1
    omega

theorem scan_fst_eq (l : List Cell) (a b : Option Position) :
    (l.foldl scanCell (a, b)).1 =
      (match (l.filter (fun c => c.type = CellType.start)).getLast? with
       | some c => some ⟨c.row, c.col⟩
       | none => a) := by
  induction l generalizing a b with
  | nil => simp
  | cons hd tl ih =>
      by_cases h : hd.type = CellType.start
      · simp only [List.foldl_cons, List.filter_cons, h, if_pos, scanCell,
          decide_eq_true_eq]
        rw [ih]
        cases htl : (tl.filter (fun c => c.type = CellType.start)).getLast? with
        | none =>
            simp [List.getLast?_cons, htl, h]
        | some c =>
            cases h2 : List.filter (fun c => decide (c.type = CellType.start)) tl with
            | nil => simp [h2] at htl
            | cons x xs =>
                simp [h2] at htl
                simp [h2, List.getLast?_cons_cons, ← htl]
                cases xs <;> simp_all [List.getLast?]
      · simp only [List.foldl_cons, List.filter_cons, scanCell]
        rw [if_neg h, ih]
        simp [h]

theorem scan_snd_eq (l : List Cell) (a b : Option Position) :
    (l.foldl scanCell (a, b)).2 =
      (match (l.filter (fun c => c.type = CellType.endp)).getLast? with
       | some c => some ⟨c.row, c.col⟩
       | none => b) := by
  induction l generalizing a b with
  | nil => simp
  | cons hd tl ih =>
      by_cases h : hd.type = CellType.endp
      · simp only [List.foldl_cons, List.filter_cons, h, if_pos, scanCell,
          decide_eq_true_eq]
        rw [ih]
        cases htl : (tl.filter (fun c => c.type = CellType.endp)).getLast? with
        | none =>
            simp [List.getLast?_cons, htl, h]
        | some c =>
            cases h2 : List.filter (fun c => decide (c.type = CellType.endp)) tl with
            | nil => simp [h2] at htl
            | cons x xs =>
                simp [h2] at htl
                simp [h2, List.getLast?_cons_cons, ← htl]
                cases xs <;> simp_all [List.getLast?]
      · simp only [List.foldl_cons, List.filter_cons, scanCell]
        rw [if_neg h, ih]
        simp [h]

/-- `findStartEnd` fails exactly when the grid has no `start` cell or no
`end` cell. -/
theorem findStartEnd_eq_none_iff (g : Grid) :
    findStartEnd g = none ↔ (startCells g = [] ∨ endCells g = []) := by
  have h1 := scan_fst_eq g.flatten none none
  have h2 := scan_snd_eq g.flatten none none
  have hs : startCells g = [] ↔
      (g.flatten.filter (fun c => c.type = CellType.start)) = [] := by
    unfold startCells; exact List.map_eq_nil_iff
  have he : endCells g = [] ↔
      (g.flatten.filter (fun c => c.type = CellType.endp)) = [] := by
    unfold endCells; exact List.map_eq_nil_iff
  unfold findStartEnd
  rcases hp : g.flatten.foldl scanCell (none, none) with ⟨x, y⟩
  rw [hp] at h1 h2
  simp only at h1 h2
  constructor
  · intro hn
    cases x with
    | none =>
        left
        rw [hs]
        cases hl : (g.flatten.filter (fun c => c.type = CellType.start)).getLast? with
        | none => exact List.getLast?_eq_none_iff.mp hl
        | some c => rw [hl] at h1; exact absurd h1 (by simp)
    | some s =>
        cases y with
        | none =>
            right
            rw [he]
            cases hl : (g.flatten.filter (fun c => c.type = CellType.endp)).getLast? with
            | none => exact List.getLast?_eq_none_iff.mp hl
            | some c => rw [hl] at h2; exact absurd h2 (by simp)
        | some e => simp at hn
  · intro hor
    rcases hor with hcond | hcond
    · rw [hs] at hcond
      rw [hcond] at h1
      simp at h1
      rw [h1]
    · rw [he] at hcond
      rw [hcond] at h2
      simp at h2
      rw [h2]
      cases x <;> rfl

/-- C2 counterexample: a grid with two `start` cells does not make the
solvers fail — both `bfs` and `dfs` proceed (using the last `start` found)
even though the grid does not contain exactly one `start`. -/
theorem c2_counterexample :
    (startCells gTwoStarts).length = 2 ∧
      bfs gTwoStarts ≠ none ∧ dfs gTwoStarts ≠ none := by
  refine ⟨by decide, by decide, by decide⟩

/-- C2 (amended): `bfs` and `dfs` raise the missing-endpoint error if and
only if the grid has no `start` cell or no `end` cell (duplicates are
tolerated; the last occurrence of each is used). -/
theorem solvers_fail_iff_no_endpoint (g : Grid) :
    (bfs g = none ↔ (startCells g = [] ∨ endCells g = [])) ∧
    (dfs g = none ↔ (startCells g = [] ∨ endCells g = [])) := by
  have h := findStartEnd_eq_none_iff g
  constructor
  · unfold bfs
    cases hfs : findStartEnd g with
    | none => simpa [hfs] using h.mp hfs
    | some pr =>
        rcases pr with ⟨s, e⟩
        have : ¬(startCells g = [] ∨ endCells g = []) := by
          intro hor
          rw [← h] at hor
          rw [hfs] at hor
          exact absurd hor (by simp)
        simp only [this, iff_false]
        cases hp : (bfsLoop g e (gridFuel g)
            ⟨[s], {s}, (fun p => if p = s then some none else none), []⟩).par e <;>
          simp [hp]
  · unfold dfs
    cases hfs : findStartEnd g with
    | none => simpa [hfs] using h.mp hfs
    | some pr =>
        rcases pr with ⟨s, e⟩
        have : ¬(startCells g = [] ∨ endCells g = []) := by
          intro hor
          rw [← h] at hor
          rw [hfs] at hor
          exact absurd hor (by simp)
        simp only [this, iff_false]
        cases hp : (dfsLoop g e (dfsFuel g)
            ⟨[s], ∅, (fun p => if p = s then some none else none), []⟩).par e <;>
          simp [hp]

/-! ## C6: DFS step discipline -/
theorem dfsPush_of_mem (cur : Position) (acc : DfsSt) (n : Position)
    (h : n ∈ acc.vis) : dfsPush cur acc n = acc := by
  unfold dfsPush
  rw [if_pos h]

theorem dfsPush_stack_of_not_mem (cur : Position) (acc : DfsSt) (n : Position)
    (h : n ∉ acc.vis) : (dfsPush cur acc n).stack = n :: acc.stack := by
  unfold dfsPush
  rw [if_neg h]

theorem dfsPush_preserves_vis (cur : Position) (acc : DfsSt) (n : Position) :
    (dfsPush cur acc n).vis = acc.vis := by
  unfold dfsPush
  split <;> rfl

theorem dfsPush_fold_vis (cur : Position) (l : List Position) (acc : DfsSt) :
    (l.foldl (dfsPush cur) acc).vis = acc.vis := by
  induction l generalizing acc with
  | nil => rfl
  | cons hd tl ih => rw [List.foldl_cons, ih, dfsPush_preserves_vis]

theorem dfsPush_preserves_par (cur : Position) (acc : DfsSt) (n p : Position)
    (hp : acc.par p ≠ none) : (dfsPush cur acc n).par p = acc.par p := by
  unfold dfsPush
  split
  · rfl
  · simp only
    split
    · rename_i hnone
      by_cases hpn : p = n
      · subst hpn; exact absurd hnone hp
      · simp [hpn]
    · rfl

theorem dfsPush_fold_par (cur : Position) (l : List Position) (acc : DfsSt)
    (p : Position) (hp : acc.par p ≠ none) :
    (l.foldl (dfsPush cur) acc).par p = acc.par p := by
  induction l generalizing acc with
  | nil => rfl
  | cons hd tl ih =>
      rw [List.foldl_cons, ih, dfsPush_preserves_par cur acc hd p hp]
      rw [dfsPush_preserves_par cur acc hd p hp]
      exact hp

theorem dfsPush_fold_stack (cur : Position) (l : List Position) (acc : DfsSt) :
    ((l.reverse).foldl (dfsPush cur) acc).stack =
      (l.filter (fun n => n ∉ acc.vis)) ++ acc.stack := by
  induction l generalizing acc with
  | nil => rfl
  | cons hd tl ih =>
      rw [List.reverse_cons, List.foldl_append]
      simp only [List.foldl_cons, List.foldl_nil]
      have hvis := dfsPush_fold_vis cur tl.reverse acc
      have hstk := ih acc
      by_cases h : hd ∈ acc.vis
      · have heq := dfsPush_of_mem cur (tl.reverse.foldl (dfsPush cur) acc) hd
          (by rw [hvis]; exact h)
        rw [heq, hstk]
        simp [List.filter_cons, h]
      · have heq := dfsPush_stack_of_not_mem cur
          (tl.reverse.foldl (dfsPush cur) acc) hd (by rw [hvis]; exact h)
        rw [heq, hstk]
        simp [List.filter_cons, h]

/-- C6: the DFS pop discipline.  With the stack topped by `cur`:
a visited `cur` is skipped without being re-marked or re-recorded; an
unvisited `cur` is marked and appended to `visitedOrder` on pop, its
expansion never overwrites an existing parent pointer, and it pushes
exactly the not-yet-visited neighbors, in reverse enumeration order, so
that the new stack starts with them in forward order (up, down, left,
right). -/
theorem dfs_step_discipline (g : Grid) (s e : Position)
    (hs : startCells g = [s]) (he : endCells g = [e]) :
    ∀ (fuel : Nat) (st : DfsSt) (cur : Position) (rest : List Position),
      st.stack = cur :: rest →
      ((cur ∈ st.vis →
          dfsLoop g e (fuel+1) st = dfsLoop g e fuel { st with stack := rest }) ∧
       (cur ∉ st.vis → cur ≠ e →
          dfsLoop g e (fuel+1) st =
            dfsLoop g e fuel
              (dfsExpand g cur
                { st with stack := rest, vis := insert cur st.vis,
                          ord := st.ord ++ [cur] }) ∧
          (dfsExpand g cur
              { st with stack := rest, vis := insert cur st.vis,
                        ord := st.ord ++ [cur] }).ord = st.ord ++ [cur] ∧
          (dfsExpand g cur
              { st with stack := rest, vis := insert cur st.vis,
                        ord := st.ord ++ [cur] }).vis = insert cur st.vis ∧
          (∀ p, st.par p ≠ none →
            (dfsExpand g cur
                { st with stack := rest, vis := insert cur st.vis,
                          ord := st.ord ++ [cur] }).par p = st.par p) ∧
          (dfsExpand g cur
              { st with stack := rest, vis := insert cur st.vis,
                        ord := st.ord ++ [cur] }).stack =
            (getNeighbors g cur).filter (fun n => n ∉ insert cur st.vis)
              ++ rest) ∧
       (cur ∉ st.vis → cur = e →
          dfsLoop g e (fuel+1) st =
            { st with stack := rest, vis := insert cur st.vis,
                      ord := st.ord ++ [cur] })) := by
  intro fuel st cur rest hstk
  have hordfold : ∀ (l : List Position) (acc : DfsSt),
      (l.foldl (dfsPush cur) acc).ord = acc.ord := by
    intro l
    induction l with
    | nil => intro acc; rfl
    | cons hd tl ih =>
        intro acc
        rw [List.foldl_cons, ih]
        unfold dfsPush
        split <;> rfl
  obtain ⟨stk, vis, par, ord⟩ := st
  simp only at hstk
  subst hstk
  refine ⟨fun hv => ?_, fun hnv hne => ?_, fun hnv heq => ?_⟩
  · simp only at hv
    simp only [dfsLoop, hv, if_true]
  · simp only at hnv
    refine ⟨by simp only [dfsLoop, hnv, hne, if_false, if_neg, dfsExpand], ?_, ?_, ?_, ?_⟩
    · exact hordfold _ _
    · exact dfsPush_fold_vis _ _ _
    · intro p hp
      exact dfsPush_fold_par cur _ _ p (by simpa using hp)
    · exact dfsPush_fold_stack cur _ _
  · simp only at hnv
    simp only [dfsLoop, hnv, heq, if_false, if_true, if_neg, if_pos]
    rw [if_neg (heq ▸ hnv)]

/-- Witness for C6 on a concrete grid with one `start` and one `end`. -/
theorem dfs_step_discipline_witness :
    startCells [[⟨0, 0, CellType.start⟩, ⟨0, 1, CellType.endp⟩]] = [⟨0, 0⟩] ∧
    endCells [[⟨0, 0, CellType.start⟩, ⟨0, 1, CellType.endp⟩]] = [⟨0, 1⟩] ∧
    (∀ (fuel : Nat) (st : DfsSt) (cur : Position) (rest : List Position),
      st.stack = cur :: rest →
      ((cur ∈ st.vis →
          dfsLoop [[⟨0, 0, CellType.start⟩, ⟨0, 1, CellType.endp⟩]] ⟨0, 1⟩
              (fuel+1) st =
            dfsLoop [[⟨0, 0, CellType.start⟩, ⟨0, 1, CellType.endp⟩]] ⟨0, 1⟩
              fuel { st with stack := rest }) ∧
       (cur ∉ st.vis → cur ≠ ⟨0, 1⟩ →
          dfsLoop [[⟨0, 0, CellType.start⟩, ⟨0, 1, CellType.endp⟩]] ⟨0, 1⟩
              (fuel+1) st =
            dfsLoop [[⟨0, 0, CellType.start⟩, ⟨0, 1, CellType.endp⟩]] ⟨0, 1⟩
              fuel
              (dfsExpand [[⟨0, 0, CellType.start⟩, ⟨0, 1, CellType.endp⟩]] cur
                { st with stack := rest, vis := insert cur st.vis,
                          ord := st.ord ++ [cur] }) ∧
          (dfsExpand [[⟨0, 0, CellType.start⟩, ⟨0, 1, CellType.endp⟩]] cur
              { st with stack := rest, vis := insert cur st.vis,
                        ord := st.ord ++ [cur] }).ord = st.ord ++ [cur] ∧
          (dfsExpand [[⟨0, 0, CellType.start⟩, ⟨0, 1, CellType.endp⟩]] cur
              { st with stack := rest, vis := insert cur st.vis,
                        ord := st.ord ++ [cur] }).vis = insert cur st.vis ∧
          (∀ p, st.par p ≠ none →
            (dfsExpand [[⟨0, 0, CellType.start⟩, ⟨0, 1, CellType.endp⟩]] cur
                { st with stack := rest, vis := insert cur st.vis,
                          ord := st.ord ++ [cur] }).par p = st.par p) ∧
          (dfsExpand [[⟨0, 0, CellType.start⟩, ⟨0, 1, CellType.endp⟩]] cur
              { st with stack := rest, vis := insert cur st.vis,
                        ord := st.ord ++ [cur] }).stack =
            (getNeighbors [[⟨0, 0, CellType.start⟩, ⟨0, 1, CellType.endp⟩]]
                cur).filter (fun n => n ∉ insert cur st.vis) ++ rest) ∧
       (cur ∉ st.vis → cur = ⟨0, 1⟩ →
          dfsLoop [[⟨0, 0, CellType.start⟩, ⟨0, 1, CellType.endp⟩]] ⟨0, 1⟩
              (fuel+1) st =
            { st with stack := rest, vis := insert cur st.vis,
                      ord := st.ord ++ [cur] }))) :=
  ⟨by decide, by decide,
   dfs_step_discipline [[⟨0, 0, CellType.start⟩, ⟨0, 1, CellType.endp⟩]]
     ⟨0, 0⟩ ⟨0, 1⟩ (by decide) (by decide)⟩

/-- C7: each cell mutation used by the animation steps (visited playback,
path playback, finalization) leaves `start` and `end` cells unchanged,
never turns a `path` or `pathHead` cell into `visited`, and only advances
cell types forward in the ordering `passage, visited, path/pathHead`. -/
theorem anim_mutations_monotone (vset pl : List Position) (i : Nat)
    (cell : Cell) :
    (cell.type = CellType.start →
      visitCellStep vset cell = cell ∧ pathCellStep pl i cell = cell ∧
        finalCellStep cell = cell) ∧
    (cell.type = CellType.endp →
      visitCellStep vset cell = cell ∧ pathCellStep pl i cell = cell ∧
        finalCellStep cell = cell) ∧
    (cell.type = CellType.path ∨ cell.type = CellType.pathHead →
      (visitCellStep vset cell).type ≠ CellType.visited ∧
      (pathCellStep pl i cell).type ≠ CellType.visited ∧
      (finalCellStep cell).type ≠ CellType.visited) ∧
    (cell.type ∈ [CellType.passage, CellType.visited, CellType.path,
        CellType.pathHead] →
      typeRank cell.type ≤ typeRank (visitCellStep vset cell).type ∧
      typeRank cell.type ≤ typeRank (pathCellStep pl i cell).type ∧
      typeRank cell.type ≤ typeRank (finalCellStep cell).type) := by
  obtain ⟨r, c, ty⟩ := cell
  cases ty <;>
    refine ⟨fun h => ?_, fun h => ?_, fun h => ?_, fun h => ?_⟩ <;>
      first
        | (exfalso
           revert h
           decide)
        | (unfold visitCellStep pathCellStep finalCellStep
           refine ⟨?_, ?_, ?_⟩ <;> (repeat' split) <;> simp_all [typeRank])

/-- Witness for C7 at concrete cells: a `start` cell is fixed by the
visited-playback mutation, a `path` cell is never demoted to `visited`,
and a `passage` cell in the visited set only advances in rank. -/
theorem anim_mutations_monotone_witness :
    ((Cell.mk 0 0 CellType.start).type = CellType.start ∧
      visitCellStep [⟨0, 0⟩] ⟨0, 0, CellType.start⟩ = ⟨0, 0, CellType.start⟩) ∧
    (((Cell.mk 0 0 CellType.path).type = CellType.path ∨
        (Cell.mk 0 0 CellType.path).type = CellType.pathHead) ∧
      (visitCellStep [⟨0, 0⟩] ⟨0, 0, CellType.path⟩).type ≠ CellType.visited) ∧
    ((Cell.mk 0 0 CellType.passage).type ∈ [CellType.passage, CellType.visited,
        CellType.path, CellType.pathHead] ∧
      typeRank (Cell.mk 0 0 CellType.passage).type ≤
        typeRank (visitCellStep [⟨0, 0⟩] ⟨0, 0, CellType.passage⟩).type) := by
  refine ⟨⟨rfl, ?_⟩, ⟨Or.inl rfl, ?_⟩, ⟨by decide, ?_⟩⟩
  · exact ((anim_mutations_monotone [⟨0, 0⟩] [] 0 ⟨0, 0, CellType.start⟩).1 rfl).1
  · exact ((anim_mutations_monotone [⟨0, 0⟩] [] 0
      ⟨0, 0, CellType.path⟩).2.2.1 (Or.inl rfl)).1
  · exact ((anim_mutations_monotone [⟨0, 0⟩] [] 0
      ⟨0, 0, CellType.passage⟩).2.2.2 (by decide)).1

/-! ## C10: a null path schedules nothing -/

/-- C10: when the solver returns a null path, `handleSolve` schedules no
animation callbacks at all — even with a non-empty `visitedOrder` — so the
working grid never receives any marking and `isAnimating` stays `false`
at every time. -/
theorem null_path_no_animation (res : SolveResult) (d : Nat) (g : Grid)
    (hnull : res.path = none) (hvo : res.visitedOrder ≠ []) :
    solveEvents res d = [] ∧ (∀ t, runTo res d g t = ⟨g, false⟩) := by
  have hev : solveEvents res d = [] := by
    unfold solveEvents
    rw [hnull]
  refine ⟨hev, fun t => ?_⟩
  unfold runTo
  rw [hev, hnull]
  rfl

/-- Witness for C10 on a concrete null-path result. -/
theorem null_path_no_animation_witness :
    (SolveResult.mk none [⟨1, 0⟩]).path = none ∧
    (SolveResult.mk none [⟨1, 0⟩]).visitedOrder ≠ [] ∧
    solveEvents ⟨none, [⟨1, 0⟩]⟩ 5 = [] ∧
    (∀ t, runTo ⟨none, [⟨1, 0⟩]⟩ 5 [[⟨0, 0, CellType.passage⟩]] t =
      ⟨[[⟨0, 0, CellType.passage⟩]], false⟩) := by
  have h := null_path_no_animation ⟨none, [⟨1, 0⟩]⟩ 5
    [[⟨0, 0, CellType.passage⟩]] rfl (by decide)
  exact ⟨rfl, by decide, h.1, h.2⟩

/-! ## C8: the animation schedule -/
theorem anim_fold_animating (res : SolveResult) :
    ∀ (l : List AnimEvent) (st : AnimState),
      ((l.foldl (fun st ev => applyAct res ev.act st) st).animating = true ↔
        (st.animating = true ∧ ∀ ev ∈ l, ev.act ≠ AnimAct.finalizeStep)) := by
  intro l
  induction l with
  | nil => intro st; simp
  | cons hd tl ih =>
      intro st
      rw [List.foldl_cons, ih]
      rcases hd with ⟨tm, a⟩
      cases a with
      | visitStep i =>
          simp only [applyAct, List.mem_cons]
          constructor
          · rintro ⟨ha, hall⟩
            exact ⟨ha, fun ev hev => by
              rcases hev with hev | hev
              · subst hev; simp
              · exact hall ev hev⟩
          · rintro ⟨ha, hall⟩
            exact ⟨ha, fun ev hev => hall ev (Or.inr hev)⟩
      | pathStep i =>
          cases hres : res.path with
          | none =>
              simp only [applyAct, hres, List.mem_cons]
              constructor
              · rintro ⟨ha, hall⟩
                exact ⟨ha, fun ev hev => by
                  rcases hev with hev | hev
                  · subst hev; simp
                  · exact hall ev hev⟩
              · rintro ⟨ha, hall⟩
                exact ⟨ha, fun ev hev => hall ev (Or.inr hev)⟩
          | some p =>
              simp only [applyAct, hres, List.mem_cons]
              constructor
              · rintro ⟨ha, hall⟩
                exact ⟨ha, fun ev hev => by
                  rcases hev with hev | hev
                  · subst hev; simp
                  · exact hall ev hev⟩
              · rintro ⟨ha, hall⟩
                exact ⟨ha, fun ev hev => hall ev (Or.inr hev)⟩
      | finalizeStep =>
          simp only [applyAct, List.mem_cons]
          constructor
          · rintro ⟨ha, hall⟩
            simp at ha
          · rintro ⟨ha, hall⟩
            exact absurd rfl (hall ⟨tm, AnimAct.finalizeStep⟩ (Or.inl rfl))

/-- C8: for a found path, the schedule consists of exactly one visited
mutation per index `i` of `visitedOrder` at time `d*i`, one path mutation
per index `i` of `path` at time `d*V + d*i`, and one finalize callback
`2*d` after the last path step; `isAnimating` is `true` from the start of
the animation exactly until the finalize callback fires. -/
theorem anim_schedule_times (res : SolveResult) (d : Nat) (p : List Position)
    (hp : res.path = some p) (hne : p ≠ []) :
    solveEvents res d =
      ((List.range res.visitedOrder.length).map
        (fun i => ⟨d * i, AnimAct.visitStep i⟩)) ++
      ((List.range p.length).map
        (fun i => ⟨d * res.visitedOrder.length + d * i, AnimAct.pathStep i⟩)) ++
      [⟨d * res.visitedOrder.length + d * (p.length - 1) + d * 2,
        AnimAct.finalizeStep⟩] ∧
    (∀ g0 t, (runTo res d g0 t).animating = true ↔
      t < d * res.visitedOrder.length + d * (p.length - 1) + d * 2) := by
  have hev : solveEvents res d =
      ((List.range res.visitedOrder.length).map
        (fun i => ⟨d * i, AnimAct.visitStep i⟩)) ++
      ((List.range p.length).map
        (fun i => ⟨d * res.visitedOrder.length + d * i, AnimAct.pathStep i⟩)) ++
      [⟨d * res.visitedOrder.length + d * (p.length - 1) + d * 2,
        AnimAct.finalizeStep⟩] := by
    unfold solveEvents
    rw [hp]
    simp [hne]
  refine ⟨hev, fun g0 t => ?_⟩
  unfold runTo
  rw [anim_fold_animating res, hp]
  simp only [Option.isSome_some, true_and]
  rw [hev]
  constructor
  · intro hall
    by_contra hlt
    push_neg at hlt
    refine absurd rfl (hall ⟨d * res.visitedOrder.length + d * (p.length - 1)
      + d * 2, AnimAct.finalizeStep⟩ ?_)
    rw [List.mem_filter]
    exact ⟨by simp, by simpa using hlt⟩
  · intro hlt ev hev2
    rw [List.mem_filter] at hev2
    rcases hev2 with ⟨hmem, htime⟩
    simp only [List.append_assoc, List.mem_append, List.mem_map,
      List.mem_range, List.mem_singleton] at hmem
    rcases hmem with ⟨i, _, hi⟩ | ⟨i, _, hi⟩ | hi
    · rw [← hi]
      simp
    · rw [← hi]
      simp
    · exfalso
      rw [hi] at htime
      simp only [decide_eq_true_eq] at htime
      omega

/-- Witness for C8: with `baseDelay = 5` (fast) the schedule is exactly
five mutations at times 0, 5, 10, 15, 20 plus one finalize at time 30,
and `isAnimating` holds exactly before time 30. -/
theorem anim_schedule_times_witness :
    resScenario.path = some [⟨0, 0⟩, ⟨0, 1⟩] ∧
    ([(⟨0, 0⟩ : Position), ⟨0, 1⟩] ≠ []) ∧
    solveEvents resScenario (baseDelayOf Speed.fast) =
      [⟨0, AnimAct.visitStep 0⟩, ⟨5, AnimAct.visitStep 1⟩,
       ⟨10, AnimAct.visitStep 2⟩, ⟨15, AnimAct.pathStep 0⟩,
       ⟨20, AnimAct.pathStep 1⟩, ⟨30, AnimAct.finalizeStep⟩] ∧
    (∀ g0 t, (runTo resScenario (baseDelayOf Speed.fast) g0 t).animating = true ↔
      t < 30) := by
  have h := anim_schedule_times resScenario (baseDelayOf Speed.fast)
    [⟨0, 0⟩, ⟨0, 1⟩] rfl (by decide)
  refine ⟨rfl, by decide, h.1.trans (by decide), fun g0 t => ?_⟩
  have h2 := h.2 g0 t
  simpa [resScenario, baseDelayOf] using h2

theorem carveFrom_succ (R C : Nat) (rng : Nat → Nat) (fuel : Nat)
    (st : CarveSt) (p : Nat × Nat) :
    carveFrom R C rng (fuel+1) st p =
      carveDirs R C rng fuel
        { markRoom st p with ctr := (shuffleDirs rng (markRoom st p).ctr).2 }
        p (shuffleDirs rng (markRoom st p).ctr).1 := rfl

/-! ## Generator support lemmas -/
theorem clampDim_ge (x : Int) : 5 ≤ clampDim x := by
  unfold clampDim
  rcases le_total 5 x with h | h <;> rcases le_total 50 x with h2 | h2 <;>
    simp [min_def, max_def, h, h2] <;> omega

theorem clampDim_le (x : Int) : clampDim x ≤ 50 := by
  unfold clampDim
  rcases le_total 5 x with h | h <;> rcases le_total 50 x with h2 | h2 <;>
    simp [min_def, max_def, h, h2] <;> omega

theorem cellAt_mkGrid (f : Nat → Nat → CellType) (rows cols r c : Nat) :
    cellAt (mkGrid f rows cols) r c =
      if r < rows ∧ c < cols then some ⟨r, c, f r c⟩ else none := by
  unfold cellAt mkGrid
  rcases Nat.lt_or_ge r rows with hr | hr
  · rw [List.get?_map, List.get?_range hr]
    simp only [Option.map_some', Option.some_bind]
    rcases Nat.lt_or_ge c cols with hc | hc
    · rw [List.get?_map, List.get?_range hc]
      simp [hr, hc]
    · rw [List.get?_map]
      rw [List.get?_eq_none.mpr (by simpa using hc)]
      have hcond : ¬(r < rows ∧ c < cols) := by omega
      rw [if_neg hcond]
      rfl
  · rw [List.get?_map]
    rw [List.get?_eq_none.mpr (by simpa using hr)]
    have hcond : ¬(r < rows ∧ c < cols) := by omega
    rw [if_neg hcond]
    rfl

theorem typeAt_mkGrid (f : Nat → Nat → CellType) (rows cols r c : Nat)
    (hr : r < rows) (hc : c < cols) :
    typeAt (mkGrid f rows cols) r c = some (f r c) := by
  unfold typeAt
  rw [cellAt_mkGrid]
  simp [hr, hc]

theorem filter_flatten_lem {α : Type} (p : α → Bool) :
    ∀ (L : List (List α)), L.flatten.filter p = (L.map (List.filter p)).flatten := by
  intro L
  induction L with
  | nil => rfl
  | cons hd tl ih => simp [List.filter_append, ih]

theorem flatten_single {α : Type} :
    ∀ (l : List Nat) (g : Nat → List α) (a : Nat) (x : α),
      a ∈ l → l.Nodup → (∀ r ∈ l, g r = if r = a then [x] else []) →
      (l.map g).flatten = [x] := by
  intro l
  induction l with
  | nil => intro g a x hmem; exact absurd hmem (List.not_mem_nil a)
  | cons hd tl ih =>
      intro g a x hmem hnd hg
      rcases List.mem_cons.mp hmem with heq | hmem'
      · have h1 : g hd = [x] := by
          rw [hg hd (List.mem_cons_self hd tl), if_pos heq.symm]
        have h2 : (tl.map g).flatten = [] := by
          rw [List.flatten_eq_nil_iff]
          intro ys hys
          rcases List.mem_map.mp hys with ⟨r, hr, hgr⟩
          have hrne : r ≠ a := by
            intro hra
            exact (List.nodup_cons.mp hnd).1 ((hra.trans heq) ▸ hr)
          rw [← hgr, hg r (List.mem_cons_of_mem hd hr), if_neg hrne]
        simp [h1, h2]
      · have hne : hd ≠ a := by
          intro h
          exact (List.nodup_cons.mp hnd).1 (h ▸ hmem')
        have h1 : g hd = [] := by rw [hg hd (List.mem_cons_self hd tl), if_neg hne]
        have h2 := ih (g := g) a x hmem' (List.nodup_cons.mp hnd).2
          (fun r hr => hg r (List.mem_cons_of_mem hd hr))
        simp [h1, h2]

theorem range_filter_eq_single (b : Nat) :
    ∀ (n : Nat), b < n →
      (List.range n).filter (fun c => decide (c = b)) = [b] := by
  intro n
  induction n with
  | zero => intro h; omega
  | succ n ih =>
      intro hb
      rw [List.range_succ, List.filter_append]
      rcases Nat.lt_or_ge b n with h | h
      · rw [ih h]
        have : n ≠ b := by omega
        simp [this]
      · have hbn : b = n := by omega
        subst hbn
        have : (List.range b).filter (fun c => decide (c = b)) = [] := by
          rw [List.filter_eq_nil_iff]
          intro c hc
          have := List.mem_range.mp hc
          simp
          omega
        rw [this]
        simp

theorem mkGrid_filter_single (f : Nat → Nat → CellType) (rows cols : Nat)
    (p : Cell → Bool) (a b : Nat) (ha : a < rows) (hb : b < cols)
    (hp : ∀ r c, r < rows → c < cols →
      (p ⟨r, c, f r c⟩ = true ↔ (r = a ∧ c = b))) :
    (mkGrid f rows cols).flatten.filter p = [⟨a, b, f a b⟩] := by
  unfold mkGrid
  rw [filter_flatten_lem, List.map_map]
  apply flatten_single (a := a) (x := (⟨a, b, f a b⟩ : Cell))
  · exact List.mem_range.mpr ha
  · exact List.nodup_range rows
  · intro r hr
    have hrlt := List.mem_range.mp hr
    simp only [Function.comp]
    by_cases hra : r = a
    · subst hra
      rw [if_pos rfl]
      have hcongr : ∀ c ∈ List.range cols,
          p ⟨r, c, f r c⟩ = decide (c = b) := by
        intro c hc
        have hclt := List.mem_range.mp hc
        by_cases hcb : c = b
        · subst hcb
          simp [((hp r c hrlt hclt).mpr ⟨rfl, rfl⟩)]
        · have : ¬ p ⟨r, c, f r c⟩ = true := by
            intro hcontra
            exact hcb ((hp r c hrlt hclt).mp hcontra).2
          simp only [Bool.not_eq_true] at this
          simp [this, hcb]
      rw [List.filter_map]
      simp only [Function.comp_def]
      rw [List.filter_congr hcongr, range_filter_eq_single b cols hb]
      rfl
    · rw [if_neg hra]
      rw [List.filter_map]
      simp only [Function.comp_def]
      have : (List.range cols).filter (fun c => p ⟨r, c, f r c⟩) = [] := by
        rw [List.filter_eq_nil_iff]
        intro c hc
        intro hcontra
        exact hra ((hp r c hrlt (List.mem_range.mp hc)).mp hcontra).1
      rw [this]
      rfl

theorem carveDirs_nil (R C : Nat) (rng : Nat → Nat) (fuel : Nat)
    (st : CarveSt) (p : Nat × Nat) :
    carveDirs R C rng fuel st p [] = st := rfl

theorem carveDirs_cons (R C : Nat) (rng : Nat → Nat) (fuel : Nat)
    (st : CarveSt) (p : Nat × Nat) (d : Int × Int) (ds : List (Int × Int)) :
    carveDirs R C rng fuel st p (d :: ds) =
      carveDirs R C rng fuel
        (carveStep R C (carveFrom R C rng fuel) p st d) p ds := rfl

theorem setT_wp (f : Nat → Nat → CellType) (r0 c0 : Nat)
    (h : ∀ r c, f r c = CellType.wall ∨ f r c = CellType.passage) :
    ∀ r c, setT f r0 c0 CellType.passage r c = CellType.wall ∨
      setT f r0 c0 CellType.passage r c = CellType.passage := by
  intro r c
  unfold setT
  split
  · exact Or.inr rfl
  · exact h r c

theorem carveDirs_wp (R C : Nat) (rng : Nat → Nat) (fuel : Nat)
    (ihf : ∀ st p, WallPass st → WallPass (carveFrom R C rng fuel st p)) :
    ∀ (ds : List (Int × Int)) (st : CarveSt) (p : Nat × Nat),
      WallPass st → WallPass (carveDirs R C rng fuel st p ds) := by
  intro ds
  induction ds with
  | nil => intro st p h; exact h
  | cons d ds ihd =>
      intro st p h
      rw [carveDirs_cons]
      apply ihd
      simp only [carveStep]
      split
      · apply ihf
        exact setT_wp _ _ _ h
      · exact h

theorem carve_wp (R C : Nat) (rng : Nat → Nat) :
    ∀ (fuel : Nat) (st : CarveSt) (p : Nat × Nat),
      WallPass st → WallPass (carveFrom R C rng fuel st p) := by
  intro fuel
  induction fuel with
  | zero => intro st p h; exact h
  | succ fuel ih =>
      intro st p h
      rw [carveFrom_succ]
      apply carveDirs_wp R C rng fuel ih
      exact setT_wp _ _ _ h

/-- The final cell-type table of the generator, at in-bounds positions. -/
theorem generate_typeAt (rng : Nat → Nat) (mazeRows mazeCols : Int)
    (r c : Nat) (hr : r < 2 * clampDim mazeRows + 1)
    (hc : c < 2 * clampDim mazeCols + 1) :
    typeAt (generatePerfectMaze rng mazeRows mazeCols) r c =
      some (setT (setT (carveFrom (clampDim mazeRows) (clampDim mazeCols) rng
          (clampDim mazeRows * clampDim mazeCols) initCarveSt (0, 0)).cellT
        1 0 CellType.start)
        (2 * clampDim mazeRows + 1 - 2) (2 * clampDim mazeCols + 1 - 1)
        CellType.endp r c) := by
  unfold generatePerfectMaze
  exact typeAt_mkGrid _ _ _ r c hr hc

/-- C3 (amended): for every input and every random stream, the generated
grid has its `start` at grid position `(1, 0)` and its `end` at grid
position `(2*R - 1, 2*C)` — the bottom-right room's opening in the last
column — regardless of carve state. -/
theorem generate_start_end_positions (rng : Nat → Nat)
    (mazeRows mazeCols : Int) :
    typeAt (generatePerfectMaze rng mazeRows mazeCols) 1 0 =
        some CellType.start ∧
    typeAt (generatePerfectMaze rng mazeRows mazeCols)
        (2 * clampDim mazeRows - 1) (2 * clampDim mazeCols) =
      some CellType.endp := by
  have hR := clampDim_ge mazeRows
  have hC := clampDim_ge mazeCols
  constructor
  · rw [generate_typeAt _ _ _ _ _ (by omega) (by omega)]
    simp only [setT]
    rw [if_neg (by omega), if_pos (by simp)]
  · rw [generate_typeAt _ _ _ _ _ (by omega) (by omega)]
    simp only [setT]
    rw [if_pos (by omega)]

/-- C3 counterexample: with the constant-zero random stream and input
`(5, 5)`, the cell at the claimed position `(2*R, 2*C) = (10, 10)` is a
wall (it is the bottom-right outer corner), not the `end`; the `end` is
one row up at `(9, 10)`. -/
theorem c3_counterexample :
    typeAt (generatePerfectMaze (fun _ => 0) 5 5) (2 * 5) (2 * 5) ≠
        some CellType.endp ∧
    typeAt (generatePerfectMaze (fun _ => 0) 5 5) (2 * 5) (2 * 5) =
        some CellType.wall ∧
    typeAt (generatePerfectMaze (fun _ => 0) 5 5) (2 * 5 - 1) (2 * 5) =
        some CellType.endp := by
  refine ⟨by decide, by decide, by decide⟩

/-- C9: the generator is total over all integer inputs and returns a
rectangular `(2R+1) x (2C+1)` grid, `R`/`C` the inputs clamped into
`[5, 50]`, with exactly one `start` cell (at `(1,0)`) and exactly one
`end` cell (at `(2R-1, 2C)`). -/
theorem generate_shape_unique_endpoints (rng : Nat → Nat)
    (mazeRows mazeCols : Int) :
    (generatePerfectMaze rng mazeRows mazeCols).length =
        2 * clampDim mazeRows + 1 ∧
    (∀ row ∈ generatePerfectMaze rng mazeRows mazeCols,
        row.length = 2 * clampDim mazeCols + 1) ∧
    5 ≤ clampDim mazeRows ∧ clampDim mazeRows ≤ 50 ∧
    5 ≤ clampDim mazeCols ∧ clampDim mazeCols ≤ 50 ∧
    startCells (generatePerfectMaze rng mazeRows mazeCols) = [⟨1, 0⟩] ∧
    endCells (generatePerfectMaze rng mazeRows mazeCols) =
      [⟨2 * clampDim mazeRows - 1, 2 * clampDim mazeCols⟩] := by
  have hR := clampDim_ge mazeRows
  have hC := clampDim_ge mazeCols
  have hwp : WallPass (carveFrom (clampDim mazeRows) (clampDim mazeCols) rng
      (clampDim mazeRows * clampDim mazeCols) initCarveSt (0, 0)) :=
    carve_wp _ _ _ _ _ _ (fun r c => Or.inl rfl)
  refine ⟨?_, ?_, hR, clampDim_le mazeRows, hC, clampDim_le mazeCols, ?_, ?_⟩
  · unfold generatePerfectMaze mkGrid
    simp
  · intro row hrow
    unfold generatePerfectMaze mkGrid at hrow
    rcases List.mem_map.mp hrow with ⟨r, _, hmap⟩
    rw [← hmap]
    simp
  · unfold startCells generatePerfectMaze
    rw [mkGrid_filter_single _ _ _ _ 1 0 (by omega) (by omega) ?hp]
    · rfl
    case hp =>
      intro r c hrlt hclt
      simp only [setT, decide_eq_true_eq]
      constructor
      · intro htype
        by_cases hend : r = 2 * clampDim mazeRows + 1 - 2 ∧
            c = 2 * clampDim mazeCols + 1 - 1
        · rw [if_pos hend] at htype
          exact absurd htype (by simp)
        · rw [if_neg hend] at htype
          by_cases h10 : r = 1 ∧ c = 0
          · exact h10
          · rw [if_neg h10] at htype
            rcases hwp r c with hw | hw <;> rw [hw] at htype <;>
              exact absurd htype (by simp)
      · rintro ⟨hr1, hc0⟩
        subst hr1
        subst hc0
        rw [if_neg (by omega), if_pos (by simp)]
  · unfold endCells generatePerfectMaze
    rw [mkGrid_filter_single _ _ _ _ (2 * clampDim mazeRows + 1 - 2)
      (2 * clampDim mazeCols + 1 - 1) (by omega) (by omega) ?hpe]
    · have h1 : 2 * clampDim mazeRows + 1 - 2 = 2 * clampDim mazeRows - 1 := by
        omega
      have h2 : 2 * clampDim mazeCols + 1 - 1 = 2 * clampDim mazeCols := by
        omega
      rw [h1, h2]
      rfl
    case hpe =>
      intro r c hrlt hclt
      simp only [setT, decide_eq_true_eq]
      constructor
      · intro htype
        by_contra hne
        rw [if_neg hne] at htype
        by_cases h10 : r = 1 ∧ c = 0
        · rw [if_pos h10] at htype
          exact absurd htype (by simp)
        · rw [if_neg h10] at htype
          rcases hwp r c with hw | hw <;> rw [hw] at htype <;>
            exact absurd htype (by simp)
      · rintro ⟨hr1, hc0⟩
        subst hr1
        subst hc0
        rw [if_pos (by simp)]

theorem mem_allPos (g : Grid) (p : Position) :
    p ∈ allPos g ↔ p.row < rowsOf g ∧ p.col < colsOf g := by
  unfold allPos
  simp only [Finset.mem_image, Finset.mem_product, Finset.mem_range]
  constructor
  · rintro ⟨⟨a, b⟩, ⟨ha, hb⟩, heq⟩
    rw [← heq]
    exact ⟨ha, hb⟩
  · intro ⟨ha, hb⟩
    exact ⟨(p.row, p.col), ⟨ha, hb⟩, rfl⟩

theorem getNeighbors_mem_allPos (g : Grid) (p n : Position)
    (h : n ∈ getNeighbors g p) : n ∈ allPos g := by
  unfold getNeighbors at h
  rw [List.mem_filterMap] at h
  rcases h with ⟨d, _, hd⟩
  simp only at hd
  split at hd
  · exact absurd hd (by simp)
  · rename_i hcond
    push_neg at hcond
    split at hd
    · exact absurd hd (by simp)
    · split at hd
      · exact absurd hd (by simp)
      · simp only [Option.some_inj] at hd
        rw [mem_allPos, ← hd]
        simp only []
        omega

theorem getNeighbors_nonwall (g : Grid) (p n : Position)
    (h : n ∈ getNeighbors g p) :
    ∃ cell, cellAt g n.row n.col = some cell ∧ cell.type ≠ CellType.wall := by
  unfold getNeighbors at h
  rw [List.mem_filterMap] at h
  rcases h with ⟨d, _, hd⟩
  simp only at hd
  split at hd
  · exact absurd hd (by simp)
  · split at hd
    · exact absurd hd (by simp)
    · rename_i cell hcell
      split at hd
      · exact absurd hd (by simp)
      · rename_i hwall
        simp only [Option.some_inj] at hd
        refine ⟨cell, ?_, hwall⟩
        rw [← hd]
        exact hcell

theorem walkFrom_single (g : Grid) (s : Position) :
    WalkFrom g s s [s] := ⟨rfl, rfl, rfl⟩

theorem walkB_snoc (g : Grid) :
    ∀ (l : List Position) (u n : Position), l.getLast? = some u →
      walkB g l = true → n ∈ getNeighbors g u → walkB g (l ++ [n]) = true := by
  intro l
  induction l with
  | nil => intro u n h; simp at h
  | cons hd tl ih =>
      intro u n hlast hw hn
      cases tl with
      | nil =>
          simp only [List.getLast?_singleton, Option.some_inj] at hlast
          subst hlast
          simp only [List.cons_append, List.nil_append, walkB, Bool.and_eq_true,
            decide_eq_true_eq]
          exact ⟨hn, by trivial⟩
      | cons x xs =>
          rw [List.getLast?_cons_cons] at hlast
          unfold walkB at hw
          rw [Bool.and_eq_true] at hw
          have := ih u n hlast hw.2 hn
          simp only [List.cons_append]
          unfold walkB
          rw [Bool.and_eq_true]
          exact ⟨hw.1, this⟩

theorem walkFrom_snoc (g : Grid) (s u n : Position) (l : List Position)
    (hw : WalkFrom g s u l) (hn : n ∈ getNeighbors g u) :
    WalkFrom g s n (l ++ [n]) := by
  rcases hw with ⟨hwb, hh, hl⟩
  refine ⟨walkB_snoc g l u n hl hwb hn, ?_, ?_⟩
  · cases l with
    | nil => simp at hh
    | cons a b => simpa using hh
  · simp

theorem walkFrom_len_one (g : Grid) (s t : Position) (l : List Position)
    (hw : WalkFrom g s t l) (hlen : l.length = 1) : s = t ∧ l = [s] := by
  rcases l with _ | ⟨a, _ | ⟨b, rest⟩⟩
  · simp at hlen
  · rcases hw with ⟨_, hh, hl⟩
    simp only [List.head?_cons, Option.some_inj] at hh
    simp only [List.getLast?_singleton, Option.some_inj] at hl
    subst hh
    subst hl
    exact ⟨rfl, rfl⟩
  · simp at hlen

theorem walkB_unsnoc (g : Grid) (t : Position) :
    ∀ (l : List Position), 2 ≤ l.length → walkB g l = true →
      l.getLast? = some t →
      ∃ l' u, l = l' ++ [t] ∧ walkB g l' = true ∧ l'.getLast? = some u ∧
        t ∈ getNeighbors g u ∧ l'.length + 1 = l.length ∧ l'.head? = l.head? := by
  intro l
  induction l with
  | nil => intro h; simp at h
  | cons hd tl ih =>
      intro hlen hwb hl
      cases tl with
      | nil => simp at hlen
      | cons x xs =>
          unfold walkB at hwb
          rw [Bool.and_eq_true, decide_eq_true_eq] at hwb
          cases xs with
          | nil =>
              simp only [List.getLast?_cons_cons, List.getLast?_singleton,
                Option.some_inj] at hl
              subst hl
              exact ⟨[hd], hd, rfl, rfl, rfl, hwb.1, rfl, rfl⟩
          | cons y ys =>
              have h2 : 2 ≤ (x :: y :: ys).length := by simp
              have hl2 : (x :: y :: ys).getLast? = some t := by
                rw [List.getLast?_cons_cons] at hl
                exact hl
              rcases ih h2 hwb.2 hl2 with
                ⟨l', u, heq, hwb2, hlast2, hn, hlen2, hhead2⟩
              rcases l' with _ | ⟨a, l''⟩
              · simp at hlen2
              · simp only [List.head?_cons, Option.some_inj] at hhead2
                subst hhead2
                refine ⟨hd :: a :: l'', u, ?_, ?_, ?_, hn, ?_, rfl⟩
                · rw [List.cons_append, ← heq]
                · unfold walkB
                  rw [Bool.and_eq_true, decide_eq_true_eq]
                  exact ⟨hwb.1, hwb2⟩
                · rw [List.getLast?_cons_cons]
                  exact hlast2
                · simp only [List.length_cons] at hlen2 ⊢
                  omega

theorem walkFrom_unsnoc (g : Grid) (s t : Position) (l : List Position)
    (hw : WalkFrom g s t l) (hlen : 2 ≤ l.length) :
    ∃ l' u, l = l' ++ [t] ∧ WalkFrom g s u l' ∧ t ∈ getNeighbors g u ∧
      l'.length + 1 = l.length := by
  rcases hw with ⟨hwb, hh, hl⟩
  rcases walkB_unsnoc g t l hlen hwb hl with
    ⟨l', u, heq, hwb2, hlast2, hn, hlen2, hhead2⟩
  refine ⟨l', u, heq, ⟨hwb2, ?_, hlast2⟩, hn, hlen2⟩
  rw [hhead2, hh]

theorem reach_subset_closed (g : Grid) (s : Position) (S : Position → Prop)
    (hs : S s) (hcl : ∀ p, S p → ∀ n ∈ getNeighbors g p, S n) :
    ∀ t, Reach g s t → S t := by
  have key : ∀ (m : Nat) (l : List Position) (t : Position), l.length ≤ m →
      WalkFrom g s t l → S t := by
    intro m
    induction m with
    | zero =>
        intro l t hlen hw
        rcases hw with ⟨hwb, _, _⟩
        cases l with
        | nil => simp [walkB] at hwb
        | cons a b => simp at hlen
    | succ m ih =>
        intro l t hlen hw
        rcases Nat.lt_or_ge l.length 2 with h2 | h2
        · have h1 : l.length = 1 := by
            rcases hw with ⟨hwb, hh, _⟩
            cases l with
            | nil => simp at hh
            | cons a b =>
                simp only [List.length_cons] at h2 ⊢
                omega
          rcases walkFrom_len_one g s t l hw h1 with ⟨hst, _⟩
          exact hst ▸ hs
        · rcases walkFrom_unsnoc g s t l hw h2 with ⟨l', u, _, hw', hn, hlen'⟩
          have : l'.length ≤ m := by omega
          exact hcl u (ih l' u this hw') t hn
  intro t hr
  rcases hr with ⟨l, hw⟩
  exact key l.length l t le_rfl hw

theorem bfsInv_to_out (g : Grid) (s e : Position) (d : Position → Nat)
    (k : Nat) (st : BfsSt) (inv : BfsInv g s e d k st) : BfsOut g s d st := by
  refine ⟨inv.hsvis, inv.hds, inv.hvb, inv.hpdom, inv.hps, inv.hchain, ?_⟩
  intro t ht l hw
  rcases Nat.lt_or_ge l.length (k + 2) with hlt | hge
  · exact (inv.hmin t l hw (by omega)).2
  · have := inv.hvd t ht
    omega

theorem bfsEnq_fold_char (cur : Position) :
    ∀ (ns : List Position) (st : BfsSt),
      ∃ new : List Position,
        (ns.foldl (bfsEnq cur) st).q = st.q ++ new ∧
        new.Nodup ∧
        (∀ b ∈ new, b ∉ st.vis ∧ b ∈ ns) ∧
        (ns.foldl (bfsEnq cur) st).vis = st.vis ∪ new.toFinset ∧
        (∀ n ∈ ns, n ∈ (ns.foldl (bfsEnq cur) st).vis) ∧
        (ns.foldl (bfsEnq cur) st).ord = st.ord ∧
        (∀ p, (ns.foldl (bfsEnq cur) st).par p =
          if p ∈ new then some (some cur) else st.par p) := by
  intro ns
  induction ns with
  | nil =>
      intro st
      exact ⟨[], by simp, by simp, by simp, by simp, by simp, by simp, by simp⟩
  | cons n rest ih =>
      intro st
      rw [List.foldl_cons]
      by_cases hn : n ∈ st.vis
      · have henq : bfsEnq cur st n = st := by
          unfold bfsEnq
          rw [if_pos hn]
        rw [henq]
        rcases ih st with ⟨new, h1, h2, h3, h4, h5, h6, h7⟩
        refine ⟨new, h1, h2, ?_, h4, ?_, h6, h7⟩
        · intro b hb
          exact ⟨(h3 b hb).1, List.mem_cons_of_mem n (h3 b hb).2⟩
        · intro m hm
          rcases List.mem_cons.mp hm with hm | hm
          · subst hm
            rw [h4]
            exact Finset.mem_union_left _ hn
          · exact h5 m hm
      · have henq : bfsEnq cur st n =
            { st with
                vis := insert n st.vis
                par := fun p => if p = n then some (some cur) else st.par p
                q := st.q ++ [n] } := by
          unfold bfsEnq
          rw [if_neg hn]
        rw [henq]
        rcases ih { st with
            vis := insert n st.vis
            par := fun p => if p = n then some (some cur) else st.par p
            q := st.q ++ [n] } with ⟨new, h1, h2, h3, h4, h5, h6, h7⟩
        simp only at h1 h3 h4 h5 h6 h7
        refine ⟨n :: new, ?_, ?_, ?_, ?_, ?_, h6, ?_⟩
        · rw [h1, List.append_assoc]
          rfl
        · rw [List.nodup_cons]
          refine ⟨fun hmem => ?_, h2⟩
          exact (h3 n hmem).1 (Finset.mem_insert_self n st.vis)
        · intro b hb
          rcases List.mem_cons.mp hb with hb | hb
          · subst hb
            exact ⟨hn, List.mem_cons_self b rest⟩
          · refine ⟨fun hbv => (h3 b hb).1 (Finset.mem_insert_of_mem hbv),
              List.mem_cons_of_mem n (h3 b hb).2⟩
        · rw [h4]
          ext x
          simp only [Finset.mem_union, Finset.mem_insert, List.toFinset_cons,
            List.mem_toFinset]
          constructor
          · rintro ((hx | hx) | hx)
            · exact Or.inr (Or.inl hx)
            · exact Or.inl hx
            · exact Or.inr (Or.inr hx)
          · rintro (hx | hx | hx)
            · exact Or.inl (Or.inr hx)
            · exact Or.inl (Or.inl hx)
            · exact Or.inr hx
        · intro m hm
          rcases List.mem_cons.mp hm with hm | hm
          · subst hm
            rw [h4]
            exact Finset.mem_union_left _ (Finset.mem_insert_self m st.vis)
          · exact h5 m hm
        · intro p
          rw [h7 p]
          by_cases hpn : p ∈ new
          · rw [if_pos hpn, if_pos (List.mem_cons_of_mem n hpn)]
          · rw [if_neg hpn]
            by_cases hpn2 : p = n
            · subst hpn2
              rw [if_pos (List.mem_cons_self p new), if_pos rfl]
            · rw [if_neg hpn2, if_neg (by
                intro hc
                rcases List.mem_cons.mp hc with hc | hc
                · exact hpn2 hc
                · exact hpn hc)]

theorem chain_realizes (g : Grid) (s : Position) (d : Position → Nat)
    (st : BfsSt) (hds : d s = 0) (hps : st.par s = some none)
    (hchain : ∀ p ∈ st.vis, p ≠ s →
      ∃ u, st.par p = some (some u) ∧ u ∈ st.vis ∧ p ∈ getNeighbors g u ∧
        d p = d u + 1) :
    ∀ (m : Nat) (p : Position), p ∈ st.vis → d p ≤ m →
      ∃ l, WalkFrom g s p l ∧ l.length = d p + 1 ∧ l.Nodup ∧
        (∀ x ∈ l, x ∈ st.vis ∧ d x ≤ d p) ∧
        (∀ fuel, d p + 1 ≤ fuel → chainFrom st.par fuel p = l.reverse) := by
  intro m
  induction m with
  | zero =>
      intro p hp hdp
      by_cases hpsx : p = s
      · subst hpsx
        refine ⟨[p], walkFrom_single g p, by simp [hds], List.nodup_singleton p,
          fun x hx => by
            rcases List.mem_singleton.mp hx with rfl
            exact ⟨hp, le_rfl⟩, ?_⟩
        intro fuel hfuel
        cases fuel with
        | zero => omega
        | succ f =>
            rw [show chainFrom st.par (f+1) p =
              (match st.par p with
               | some (some nxt) => p :: chainFrom st.par f nxt
               | _ => [p]) from rfl, hps]
            rfl
      · rcases hchain p hp hpsx with ⟨u, _, _, _, hdpu⟩
        omega
  | succ m ih =>
      intro p hp hdp
      by_cases hpsx : p = s
      · subst hpsx
        refine ⟨[p], walkFrom_single g p, by simp [hds], List.nodup_singleton p,
          fun x hx => by
            rcases List.mem_singleton.mp hx with rfl
            exact ⟨hp, le_rfl⟩, ?_⟩
        intro fuel hfuel
        cases fuel with
        | zero => simp [hds] at hfuel
        | succ f =>
            rw [show chainFrom st.par (f+1) p =
              (match st.par p with
               | some (some nxt) => p :: chainFrom st.par f nxt
               | _ => [p]) from rfl, hps]
            rfl
      · rcases hchain p hp hpsx with ⟨u, hpar, hu, hnb, hdpu⟩
        have hdu : d u ≤ m := by omega
        rcases ih u hu hdu with ⟨l, hw, hlen, hnd, hmem, hcf⟩
        refine ⟨l ++ [p], walkFrom_snoc g s u p l hw hnb, ?_, ?_, ?_, ?_⟩
        · simp only [List.length_append, List.length_singleton, hlen]
          omega
        · rw [List.nodup_append]
          refine ⟨hnd, List.nodup_singleton p, ?_⟩
          intro x hx hxp
          rcases List.mem_singleton.mp hxp with rfl
          have := (hmem x hx).2
          omega
        · intro x hx
          rcases List.mem_append.mp hx with hx | hx
          · exact ⟨(hmem x hx).1, by have := (hmem x hx).2; omega⟩
          · rcases List.mem_singleton.mp hx with rfl
            exact ⟨hp, le_rfl⟩
        · intro fuel hfuel
          cases fuel with
          | zero => omega
          | succ f =>
              rw [show chainFrom st.par (f+1) p =
                (match st.par p with
                 | some (some nxt) => p :: chainFrom st.par f nxt
                 | _ => [p]) from rfl, hpar]
              show p :: chainFrom st.par f u = (l ++ [p]).reverse
              rw [hcf f (by omega)]
              simp

theorem unvis_card_drop (g : Grid) (vis : Finset Position)
    (new : List Position) (hnd : new.Nodup)
    (hsub : ∀ b ∈ new, b ∉ vis ∧ b ∈ allPos g) :
    ((allPos g).filter (fun p => p ∉ vis ∪ new.toFinset)).card + new.length =
      ((allPos g).filter (fun p => p ∉ vis)).card := by
  have hN : new.toFinset ⊆ (allPos g).filter (fun p => p ∉ vis) := by
    intro x hx
    rw [List.mem_toFinset] at hx
    rw [Finset.mem_filter]
    exact ⟨(hsub x hx).2, (hsub x hx).1⟩
  have hset : (allPos g).filter (fun p => p ∉ vis ∪ new.toFinset) =
      ((allPos g).filter (fun p => p ∉ vis)) \ new.toFinset := by
    ext x
    simp only [Finset.mem_filter, Finset.mem_sdiff, Finset.mem_union]
    tauto
  rw [hset, Finset.card_sdiff hN, List.toFinset_card_of_nodup hnd]
  have hle : new.length ≤ ((allPos g).filter (fun p => p ∉ vis)).card := by
    rw [← List.toFinset_card_of_nodup hnd]
    exact Finset.card_le_card hN
  omega

theorem bfs_step_preserve (g : Grid) (s e : Position) (st : BfsSt)
    (d : Position → Nat) (k : Nat) (inv : BfsInv g s e d k st)
    (cur : Position) (rest : List Position) (hq : st.q = cur :: rest)
    (hne : cur ≠ e) :
    ∃ d' k',
      BfsInv g s e d' k'
        (bfsExpand g cur { st with q := rest, ord := st.ord ++ [cur] }) ∧
      (∀ p ∈ st.vis, d' p = d p) ∧
      st.vis ⊆ (bfsExpand g cur
        { st with q := rest, ord := st.ord ++ [cur] }).vis ∧
      bfsMeasure g (bfsExpand g cur
        { st with q := rest, ord := st.ord ++ [cur] }) + 1 = bfsMeasure g st := by
  rcases bfsEnq_fold_char cur (getNeighbors g cur)
      { st with q := rest, ord := st.ord ++ [cur] } with
    ⟨new, hq2, hnd2, hmem2, hvis2, hall2, hord2, hpar2⟩
  have hstE : bfsExpand g cur { st with q := rest, ord := st.ord ++ [cur] } =
      (getNeighbors g cur).foldl (bfsEnq cur)
        { st with q := rest, ord := st.ord ++ [cur] } := rfl
  rw [← hstE] at hq2 hvis2 hall2 hord2 hpar2
  simp only at hq2 hmem2 hvis2 hord2 hpar2
  have hcurv : cur ∈ st.vis := inv.hqsub cur (by rw [hq]; exact List.mem_cons_self cur rest)
  have hsub : st.vis ⊆ (bfsExpand g cur
      { st with q := rest, ord := st.ord ++ [cur] }).vis := by
    rw [hvis2]
    exact Finset.subset_union_left
  have hnewvis : ∀ b ∈ new, b ∈ (bfsExpand g cur
      { st with q := rest, ord := st.ord ++ [cur] }).vis := by
    intro b hb
    rw [hvis2]
    exact Finset.mem_union_right _ (List.mem_toFinset.mpr hb)
  rcases inv.hqAB with ⟨A, B, hAB, hAk, hBk, hABnil⟩
  have hrestnd : rest.Nodup := by
    have := inv.hqnd
    rw [hq] at this
    exact (List.nodup_cons.mp this).2
  have hcurrest : cur ∉ rest := by
    have := inv.hqnd
    rw [hq] at this
    exact (List.nodup_cons.mp this).1
  rcases A with _ | ⟨a0, A'⟩
  · rw [hABnil rfl] at hAB
    rw [hAB] at hq
    exact absurd hq (by simp)
  · have ha0 : a0 = cur ∧ rest = A' ++ B := by
      rw [hq] at hAB
      simp only [List.cons_append, List.cons.injEq] at hAB
      exact ⟨hAB.1.symm, hAB.2⟩
    rcases ha0 with ⟨heq0, hrest⟩
    have heq1 : cur = a0 := heq0.symm
    subst heq1
    have hdcur : d cur = k := hAk cur (List.mem_cons_self cur A')
    have hA'k : ∀ a ∈ A', d a = k := fun a ha =>
      hAk a (List.mem_cons_of_mem cur ha)
    -- the new level function
    refine ⟨fun p => if p ∈ st.vis then d p else k + 1,
      if A' = [] then k + 1 else k, ?_, ?_, hsub, ?_⟩
    · constructor
      -- hsvis
      case hsvis => exact hsub inv.hsvis
      case hds => rw [if_pos inv.hsvis]; exact inv.hds
      case hvb =>
        intro p hp
        rw [hvis2] at hp
        rcases Finset.mem_union.mp hp with hp | hp
        · exact inv.hvb p hp
        · rcases hmem2 p (List.mem_toFinset.mp hp) with ⟨_, hns⟩
          exact getNeighbors_mem_allPos g cur p hns
      case hpdom =>
        intro p
        rw [hpar2 p, hvis2]
        by_cases hpn : p ∈ new
        · simp only [if_pos hpn]
          constructor
          · intro _
            exact Finset.mem_union_right _ (List.mem_toFinset.mpr hpn)
          · intro _
            simp
        · simp only [if_neg hpn]
          rw [inv.hpdom p]
          constructor
          · intro hp
            exact Finset.mem_union_left _ hp
          · intro hp
            rcases Finset.mem_union.mp hp with hp | hp
            · exact hp
            · exact absurd (List.mem_toFinset.mp hp) hpn
      case hps =>
        rw [hpar2 s, if_neg (fun hs2 => (hmem2 s hs2).1 inv.hsvis)]
        exact inv.hps
      case hchain =>
        intro p hp hpns
        rw [hvis2] at hp
        rcases Finset.mem_union.mp hp with hp | hp
        · rcases inv.hchain p hp hpns with ⟨u, hu1, hu2, hu3, hu4⟩
          refine ⟨u, ?_, hsub hu2, hu3, ?_⟩
          · rw [hpar2 p, if_neg (fun hs2 => (hmem2 p hs2).1 hp)]
            exact hu1
          · rw [if_pos hp, if_pos hu2]
            exact hu4
        · have hpn := List.mem_toFinset.mp hp
          refine ⟨cur, ?_, hsub hcurv, (hmem2 p hpn).2, ?_⟩
          · rw [hpar2 p, if_pos hpn]
          · rw [if_neg (hmem2 p hpn).1, if_pos hcurv, hdcur]
      case hqsub =>
        intro p hp
        rw [hq2] at hp
        rcases List.mem_append.mp hp with hp | hp
        · exact hsub (inv.hqsub p (by rw [hq]; exact List.mem_cons_of_mem cur hp))
        · exact hnewvis p hp
      case hqnd =>
        rw [hq2]
        rw [List.nodup_append]
        refine ⟨hrestnd, hnd2, ?_⟩
        intro x hx hxn
        exact (hmem2 x hxn).1
          (inv.hqsub x (by rw [hq]; exact List.mem_cons_of_mem cur hx))
      case hqAB =>
        by_cases hA : A' = []
        · refine ⟨B ++ new, [], ?_, ?_, ?_, ?_⟩
          · rw [hq2, hrest, hA]
            simp [if_pos hA]
          · intro b hb
            rw [if_pos hA]
            rcases List.mem_append.mp hb with hb | hb
            · rw [if_pos (inv.hqsub b (by
                rw [hq, hrest]
                exact List.mem_cons_of_mem cur (List.mem_append_right A' hb)))]
              exact hBk b hb
            · rw [if_neg (hmem2 b hb).1]
          · intro b hb
            exact absurd hb (List.not_mem_nil b)
          · intro
            rfl
        · refine ⟨A', B ++ new, ?_, ?_, ?_, ?_⟩
          · rw [hq2, hrest]
            simp [if_neg hA]
          · intro a ha
            rw [if_neg hA, if_pos (inv.hqsub a (by
              rw [hq, hrest]
              exact List.mem_cons_of_mem cur (List.mem_append_left B ha)))]
            exact hA'k a ha
          · intro b hb
            rw [if_neg hA]
            rcases List.mem_append.mp hb with hb | hb
            · rw [if_pos (inv.hqsub b (by
                rw [hq, hrest]
                exact List.mem_cons_of_mem cur (List.mem_append_right A' hb)))]
              exact hBk b hb
            · rw [if_neg (hmem2 b hb).1]
          · intro hc
            exact absurd hc hA
      case hdeq =>
        intro p hp hpq
        rw [hvis2] at hp
        rw [hq2] at hpq
        have hknew : k ≤ (if A' = [] then k + 1 else k) := by
          split
          · omega
          · exact le_rfl
        rcases Finset.mem_union.mp hp with hp | hp
        · by_cases hpcur : p = cur
          · subst hpcur
            refine ⟨by rw [if_pos hp, hdcur]; exact hknew, ?_⟩
            intro n hn
            refine ⟨hall2 n hn, ?_⟩
            rw [if_pos hp, hdcur]
            by_cases hnv : n ∈ st.vis
            · rw [if_pos hnv]
              exact inv.hvd n hnv
            · rw [if_neg hnv]
          · have hpq0 : p ∉ st.q := by
              rw [hq]
              intro hmem
              rcases List.mem_cons.mp hmem with hc | hc
              · exact hpcur hc
              · exact hpq (List.mem_append_left new hc)
            rcases inv.hdeq p hp hpq0 with ⟨h1, h2⟩
            refine ⟨by rw [if_pos hp]; omega, ?_⟩
            intro n hn
            rcases h2 n hn with ⟨h3, h4⟩
            refine ⟨hsub h3, ?_⟩
            rw [if_pos hp, if_pos h3]
            exact h4
        · exact absurd (List.mem_append_right rest (List.mem_toFinset.mp hp)) hpq
      case hmin =>
        by_cases hA : A' = []
        · rw [if_pos hA]
          intro t l hw hlen
          rcases Nat.lt_or_ge l.length (k + 2) with hlt | hge
          · rcases inv.hmin t l hw (by omega) with ⟨ht, hdt⟩
            refine ⟨hsub ht, ?_⟩
            rw [if_pos ht]
            omega
          · have hlen2 : l.length = k + 2 := by omega
            have h2 : 2 ≤ l.length := by omega
            rcases walkFrom_unsnoc g s t l hw h2 with ⟨l', u, _, hw', hn, hlen'⟩
            rcases inv.hmin u l' hw' (by omega) with ⟨hu, hdu⟩
            by_cases huq : u ∈ st.q
            · rw [hq] at huq
              rcases List.mem_cons.mp huq with rfl | hurest
              · refine ⟨hall2 t hn, ?_⟩
                by_cases htv : t ∈ st.vis
                · rw [if_pos htv]
                  have := inv.hvd t htv
                  omega
                · rw [if_neg htv]
                  omega
              · rw [hrest, hA, List.nil_append] at hurest
                have := hBk u hurest
                omega
            · rcases inv.hdeq u hu huq with ⟨_, hnb⟩
              rcases hnb t hn with ⟨htv, hdt⟩
              refine ⟨hsub htv, ?_⟩
              rw [if_pos htv]
              omega
        · rw [if_neg hA]
          intro t l hw hlen
          rcases inv.hmin t l hw hlen with ⟨ht, hdt⟩
          refine ⟨hsub ht, ?_⟩
          rw [if_pos ht]
          omega
      case hvd =>
        intro p hp
        rw [hvis2] at hp
        have hkk : k + 1 ≤ (if A' = [] then k + 1 else k) + 1 := by
          split <;> omega
        rcases Finset.mem_union.mp hp with hp | hp
        · rw [if_pos hp]
          have := inv.hvd p hp
          omega
        · rw [if_neg (hmem2 p (List.mem_toFinset.mp hp)).1]
          omega
      case hpart =>
        intro p
        rw [hvis2, hq2, hord2]
        constructor
        · intro hp
          rcases Finset.mem_union.mp hp with hp | hp
          · rcases (inv.hpart p).mp hp with hp2 | hp2
            · exact Or.inl (List.mem_append_left [cur] hp2)
            · rw [hq] at hp2
              rcases List.mem_cons.mp hp2 with rfl | hp3
              · exact Or.inl (List.mem_append_right st.ord (List.mem_singleton.mpr rfl))
              · exact Or.inr (List.mem_append_left new hp3)
          · exact Or.inr (List.mem_append_right rest (List.mem_toFinset.mp hp))
        · intro hp
          rcases hp with hp | hp
          · rcases List.mem_append.mp hp with hp | hp
            · exact Finset.mem_union_left _ ((inv.hpart p).mpr (Or.inl hp))
            · rcases List.mem_singleton.mp hp with rfl
              exact Finset.mem_union_left _ hcurv
          · rcases List.mem_append.mp hp with hp | hp
            · exact Finset.mem_union_left _ (inv.hqsub p (by
                rw [hq]
                exact List.mem_cons_of_mem cur hp))
            · exact Finset.mem_union_right _ (List.mem_toFinset.mpr hp)
      case hdisj =>
        intro p hp
        rw [hord2] at hp
        rw [hq2]
        rcases List.mem_append.mp hp with hp | hp
        · intro hc
          rcases List.mem_append.mp hc with hc | hc
          · exact inv.hdisj p hp (by rw [hq]; exact List.mem_cons_of_mem cur hc)
          · exact (hmem2 p hc).1 ((inv.hpart p).mpr (Or.inl hp))
        · rcases List.mem_singleton.mp hp with rfl
          intro hc
          rcases List.mem_append.mp hc with hc | hc
          · exact hcurrest hc
          · exact (hmem2 p hc).1 hcurv
      case horde =>
        rw [hord2]
        intro hc
        rcases List.mem_append.mp hc with hc | hc
        · exact inv.horde hc
        · exact hne (List.mem_singleton.mp hc).symm
    · intro p hp
      simp only []
      rw [if_pos hp]
    · have hcard := unvis_card_drop g st.vis new hnd2 (fun b hb =>
        ⟨(hmem2 b hb).1, getNeighbors_mem_allPos g cur b (hmem2 b hb).2⟩)
      unfold bfsMeasure
      rw [hq2, hvis2, hq]
      simp only [List.length_append, List.length_cons]
      omega

theorem bfsLoop_spec (g : Grid) (s e : Position) :
    ∀ (fuel : Nat) (st : BfsSt) (d : Position → Nat) (k : Nat),
      BfsInv g s e d k st → bfsMeasure g st ≤ fuel →
      ∃ d', BfsOut g s d' (bfsLoop g e fuel st) ∧
        (∀ p ∈ st.vis, d' p = d p) ∧
        st.vis ⊆ (bfsLoop g e fuel st).vis ∧
        ((e ∈ (bfsLoop g e fuel st).vis) ∨
         ((bfsLoop g e fuel st).q = [] ∧ e ∉ (bfsLoop g e fuel st).vis ∧
          (∀ p ∈ (bfsLoop g e fuel st).vis, ∀ n ∈ getNeighbors g p,
            n ∈ (bfsLoop g e fuel st).vis) ∧
          (∀ p, p ∈ (bfsLoop g e fuel st).vis ↔
            p ∈ (bfsLoop g e fuel st).ord))) := by
  have hdone : ∀ (st : BfsSt) (d : Position → Nat) (k : Nat),
      BfsInv g s e d k st → st.q = [] →
      (e ∉ st.vis ∧
       (∀ p ∈ st.vis, ∀ n ∈ getNeighbors g p, n ∈ st.vis) ∧
       (∀ p, p ∈ st.vis ↔ p ∈ st.ord)) := by
    intro st d k inv hq
    refine ⟨?_, ?_, ?_⟩
    · intro hev
      rcases (inv.hpart e).mp hev with h | h
      · exact inv.horde h
      · rw [hq] at h
        exact List.not_mem_nil e h
    · intro p hp n hn
      have hpq : p ∉ st.q := by
        rw [hq]
        exact List.not_mem_nil p
      exact ((inv.hdeq p hp hpq).2 n hn).1
    · intro p
      rw [inv.hpart p, hq]
      simp
  intro fuel
  induction fuel with
  | zero =>
      intro st d k inv hm
      have hq : st.q = [] := by
        unfold bfsMeasure at hm
        have : st.q.length = 0 := by omega
        exact List.length_eq_zero.mp this
      have hred : bfsLoop g e 0 st = st := rfl
      rw [hred]
      rcases hdone st d k inv hq with ⟨h1, h2, h3⟩
      exact ⟨d, bfsInv_to_out g s e d k st inv, fun p _ => rfl,
        Finset.Subset.refl _, Or.inr ⟨hq, h1, h2, h3⟩⟩
  | succ fuel ih =>
      intro st d k inv hm
      obtain ⟨q0, vis0, par0, ord0⟩ := st
      rcases hq : q0 with _ | ⟨cur, rest⟩
      · subst hq
        have hred : bfsLoop g e (fuel+1) ⟨[], vis0, par0, ord0⟩ =
            ⟨[], vis0, par0, ord0⟩ := rfl
        rw [hred]
        rcases hdone _ d k inv rfl with ⟨h1, h2, h3⟩
        exact ⟨d, bfsInv_to_out g s e d k _ inv, fun p _ => rfl,
          Finset.Subset.refl _, Or.inr ⟨rfl, h1, h2, h3⟩⟩
      · subst hq
        by_cases hce : cur = e
        · have hce2 : e = cur := hce.symm
          subst hce2
          have hred : bfsLoop g e (fuel+1) ⟨e :: rest, vis0, par0, ord0⟩ =
              ⟨rest, vis0, par0, ord0 ++ [e]⟩ := by
            simp only [bfsLoop, if_pos]
          rw [hred]
          have hout : BfsOut g s d ⟨rest, vis0, par0, ord0 ++ [e]⟩ := by
            rcases bfsInv_to_out g s e d k _ inv with ⟨o1, o2, o3, o4, o5, o6, o7⟩
            exact ⟨o1, o2, o3, o4, o5, o6, o7⟩
          refine ⟨d, hout, fun p _ => rfl, Finset.Subset.refl _, Or.inl ?_⟩
          exact inv.hqsub e (List.mem_cons_self e rest)
        · have hred : bfsLoop g e (fuel+1) ⟨cur :: rest, vis0, par0, ord0⟩ =
              bfsLoop g e fuel (bfsExpand g cur
                ⟨rest, vis0, par0, ord0 ++ [cur]⟩) := by
            simp only [bfsLoop, if_neg hce]
            rfl
          rw [hred]
          rcases bfs_step_preserve g s e ⟨cur :: rest, vis0, par0, ord0⟩ d k
            inv cur rest rfl hce with ⟨d1, k1, inv1, hag1, hsub1, hmeas1⟩
          have hmeas1b : bfsMeasure g (bfsExpand g cur
              ⟨rest, vis0, par0, ord0 ++ [cur]⟩) + 1 =
              bfsMeasure g ⟨cur :: rest, vis0, par0, ord0⟩ := hmeas1
          have hm1 : bfsMeasure g (bfsExpand g cur
              ⟨rest, vis0, par0, ord0 ++ [cur]⟩) ≤ fuel := by
            omega
          rcases ih (bfsExpand g cur ⟨rest, vis0, par0, ord0 ++ [cur]⟩)
            d1 k1 inv1 hm1 with ⟨d2, hout2, hag2, hsub2, hcase2⟩
          refine ⟨d2, hout2, ?_, ?_, hcase2⟩
          · intro p hp
            rw [hag2 p (hsub1 hp), hag1 p hp]
          · exact fun p hp => hsub2 (hsub1 hp)

theorem bfs_init_inv (g : Grid) (s e : Position) (hsp : s ∈ allPos g) :
    BfsInv g s e (fun _ => 0) 0
      ⟨[s], {s}, (fun p => if p = s then some none else none), []⟩ := by
  constructor
  case hsvis => exact Finset.mem_singleton_self s
  case hds => rfl
  case hvb =>
    intro p hp
    rw [Finset.mem_singleton] at hp
    exact hp ▸ hsp
  case hpdom =>
    intro p
    by_cases hps : p = s
    · subst hps
      simp
    · simp [hps, Finset.mem_singleton]
  case hps => simp
  case hchain =>
    intro p hp hpns
    rw [Finset.mem_singleton] at hp
    exact absurd hp hpns
  case hqsub =>
    intro p hp
    rw [List.mem_singleton] at hp
    exact hp ▸ Finset.mem_singleton_self s
  case hqnd => exact List.nodup_singleton s
  case hqAB =>
    exact ⟨[s], [], rfl, fun a ha => rfl, fun b hb => absurd hb (List.not_mem_nil b),
      fun h => rfl⟩
  case hdeq =>
    intro p hp hpq
    rw [Finset.mem_singleton] at hp
    exact absurd (hp ▸ List.mem_singleton_self s : p ∈ [s]) hpq
  case hmin =>
    intro t l hw hlen
    have h1 : l.length = 1 := by
      rcases hw with ⟨hwb, hh, _⟩
      cases l with
      | nil => simp at hh
      | cons a b =>
          simp only [List.length_cons] at hlen ⊢
          omega
    rcases walkFrom_len_one g s t l hw h1 with ⟨hst, _⟩
    exact ⟨hst ▸ Finset.mem_singleton_self s, by omega⟩
  case hvd => intro p _; omega
  case hpart =>
    intro p
    rw [Finset.mem_singleton, List.mem_singleton]
    simp
  case hdisj => intro p hp; exact absurd hp (List.not_mem_nil p)
  case horde => exact List.not_mem_nil e

theorem allPos_card_le (g : Grid) :
    (allPos g).card ≤ rowsOf g * colsOf g := by
  unfold allPos
  calc ((Finset.range (rowsOf g) ×ˢ Finset.range (colsOf g)).image
          (fun rc => (⟨rc.1, rc.2⟩ : Position))).card
      ≤ (Finset.range (rowsOf g) ×ˢ Finset.range (colsOf g)).card :=
        Finset.card_image_le
    _ = rowsOf g * colsOf g := by
        rw [Finset.card_product, Finset.card_range, Finset.card_range]

theorem bfs_init_measure (g : Grid) (s : Position) :
    bfsMeasure g ⟨[s], {s}, (fun p => if p = s then some none else none), []⟩ ≤
      gridFuel g := by
  unfold bfsMeasure gridFuel
  have h1 : ((allPos g).filter
      (fun p => p ∉ ({s} : Finset Position))).card ≤ (allPos g).card :=
    Finset.card_filter_le _ _
  have h2 := allPos_card_le g
  simp only [List.length_singleton]
  omega

theorem map_eq_singleton_cell (l : List Cell) (f : Cell → Position)
    (s : Position) (h : l.map f = [s]) : ∃ c, l = [c] ∧ f c = s := by
  cases l with
  | nil => simp at h
  | cons a tl =>
      cases tl with
      | nil =>
          simp only [List.map_cons, List.map_nil, List.cons.injEq] at h
          exact ⟨a, rfl, h.1⟩
      | cons b tl2 => simp at h

theorem findStartEnd_of_unique (g : Grid) (s e : Position)
    (hs : startCells g = [s]) (he : endCells g = [e]) :
    findStartEnd g = some (s, e) := by
  unfold startCells at hs
  unfold endCells at he
  rcases map_eq_singleton_cell _ _ _ hs with ⟨cs, hcs, hcs2⟩
  rcases map_eq_singleton_cell _ _ _ he with ⟨ce, hce, hce2⟩
  have h1 := scan_fst_eq g.flatten none none
  have h2 := scan_snd_eq g.flatten none none
  rw [hcs] at h1
  rw [hce] at h2
  simp only [List.getLast?_singleton] at h1 h2
  unfold findStartEnd
  rcases hp : g.flatten.foldl scanCell (none, none) with ⟨x, y⟩
  rw [hp] at h1 h2
  simp only at h1 h2
  rw [h1, h2, hcs2, hce2]

theorem mem_cells_allPos (g : Grid) (p : Position) (hrect : Rect g)
    (hcoh : Coherent g) (cell : Cell) (hmem : cell ∈ g.flatten)
    (hpos : (⟨cell.row, cell.col⟩ : Position) = p) : p ∈ allPos g := by
  rw [List.mem_flatten] at hmem
  rcases hmem with ⟨row, hrow, hcell⟩
  rcases List.mem_iff_get?.mp hrow with ⟨r, hr⟩
  rcases List.mem_iff_get?.mp hcell with ⟨c, hc⟩
  have hca : cellAt g r c = some cell := by
    unfold cellAt
    rw [hr]
    exact hc
  rcases hcoh r c cell hca with ⟨h1, h2⟩
  rw [mem_allPos, ← hpos]
  simp only [h1, h2]
  constructor
  · exact List.get?_eq_some.mp hr |>.1
  · have := List.get?_eq_some.mp hc |>.1
    rw [hrect.2 row hrow] at this
    exact this

theorem start_mem_allPos (g : Grid) (s : Position) (hrect : Rect g)
    (hcoh : Coherent g) (hs : startCells g = [s]) : s ∈ allPos g := by
  unfold startCells at hs
  rcases map_eq_singleton_cell _ _ _ hs with ⟨cs, hcs, hcs2⟩
  have hmem : cs ∈ g.flatten := by
    have : cs ∈ g.flatten.filter (fun c => c.type = CellType.start) := by
      rw [hcs]
      exact List.mem_singleton_self cs
    exact List.mem_of_mem_filter this
  exact mem_cells_allPos g s hrect hcoh cs hmem hcs2

theorem coherent_of_b (g : Grid) (h : coherentB g = true) : Coherent g := by
  intro r c cell hcell
  unfold cellAt at hcell
  rcases hget : g.get? r with _ | row
  · rw [hget] at hcell
    exact absurd hcell (by simp)
  · rw [hget] at hcell
    simp only [Option.some_bind] at hcell
    have hr : r < rowsOf g := by
      unfold rowsOf
      exact (List.get?_eq_some.mp hget).1
    have hgd : g.getD r [] = row := by
      rw [List.getD_eq_getElem?_getD, ← List.get?_eq_getElem?, hget]
      rfl
    have hc : c < row.length := (List.get?_eq_some.mp hcell).1
    unfold coherentB at h
    rw [List.all_eq_true] at h
    have h2 := h r (List.mem_range.mpr hr)
    simp only [List.all_eq_true, hgd] at h2
    have h3 := h2 c (List.mem_range.mpr hc)
    rw [hcell] at h3
    simpa using h3

/-- C1: for a well-formed grid with one `start` and one `end` where the
end is reachable, `bfs` returns a path that is a walk from `start` to
`end` whose cell count is minimal among all such walks. -/
theorem bfs_shortest_path (g : Grid) (s e : Position)
    (hrect : Rect g) (hcoh : Coherent g)
    (hs : startCells g = [s]) (he : endCells g = [e])
    (hreach : Reach g s e) :
    ∃ res pth, bfs g = some res ∧ res.path = some pth ∧
      WalkFrom g s e pth ∧
      ∀ l, WalkFrom g s e l → pth.length ≤ l.length := by
  have hfse := findStartEnd_of_unique g s e hs he
  have hsp := start_mem_allPos g s hrect hcoh hs
  have inv0 := bfs_init_inv g s e hsp
  have hm0 := bfs_init_measure g s
  rcases bfsLoop_spec g s e (gridFuel g)
    ⟨[s], {s}, (fun p => if p = s then some none else none), []⟩
    (fun _ => 0) 0 inv0 hm0 with ⟨d', hout, hag, hsub, hcase⟩
  have hev : e ∈ (bfsLoop g e (gridFuel g)
      ⟨[s], {s}, (fun p => if p = s then some none else none), []⟩).vis := by
    rcases hcase with h | ⟨_, hne, hcl, _⟩
    · exact h
    · exact absurd (reach_subset_closed g s
        (fun t => t ∈ (bfsLoop g e (gridFuel g)
          ⟨[s], {s}, (fun p => if p = s then some none else none), []⟩).vis)
        hout.hsvis hcl e hreach) hne
  rcases chain_realizes g s d' _ hout.hds hout.hps hout.hchain (d' e) e hev
    le_rfl with ⟨l, hw, hlen, hnd, hmeml, hcf⟩
  have hlb : l.length ≤ (allPos g).card := by
    have hsubl : l.toFinset ⊆ allPos g := by
      intro x hx
      exact hout.hvb x (hmeml x (List.mem_toFinset.mp hx)).1
    calc l.length = l.toFinset.card := (List.toFinset_card_of_nodup hnd).symm
      _ ≤ (allPos g).card := Finset.card_le_card hsubl
  have hfuel : d' e + 1 ≤ gridFuel g := by
    have := allPos_card_le g
    unfold gridFuel
    omega
  have hchainv := hcf (gridFuel g) hfuel
  have hparne : (bfsLoop g e (gridFuel g)
      ⟨[s], {s}, (fun p => if p = s then some none else none), []⟩).par e ≠
      none := (hout.hpdom e).mpr hev
  rcases hpe : (bfsLoop g e (gridFuel g)
      ⟨[s], {s}, (fun p => if p = s then some none else none), []⟩).par e with
    _ | v
  · exact absurd hpe hparne
  · refine ⟨⟨some ((chainFrom (bfsLoop g e (gridFuel g)
        ⟨[s], {s}, (fun p => if p = s then some none else none), []⟩).par
        (gridFuel g) e).reverse),
      (bfsLoop g e (gridFuel g)
        ⟨[s], {s}, (fun p => if p = s then some none else none), []⟩).ord⟩,
      l, ?_, ?_, hw, ?_⟩
    · unfold bfs
      rw [hfse]
      simp only [hpe]
    · rw [hchainv, List.reverse_reverse]
    · intro l2 hw2
      have := hout.hminabs e hev l2 hw2
      omega

/-- Witness for C1 on the corridor grid. -/
theorem bfs_shortest_path_witness :
    Rect gCorridor ∧ Coherent gCorridor ∧
    startCells gCorridor = [⟨0, 0⟩] ∧ endCells gCorridor = [⟨0, 2⟩] ∧
    Reach gCorridor ⟨0, 0⟩ ⟨0, 2⟩ ∧
    (∃ res pth, bfs gCorridor = some res ∧ res.path = some pth ∧
      WalkFrom gCorridor ⟨0, 0⟩ ⟨0, 2⟩ pth ∧
      ∀ l, WalkFrom gCorridor ⟨0, 0⟩ ⟨0, 2⟩ l → pth.length ≤ l.length) := by
  have hrect : Rect gCorridor := by
    constructor
    · simp [gCorridor]
    · intro row hrow
      simp only [gCorridor, List.mem_singleton] at hrow
      rw [hrow]
      rfl
  have hcoh : Coherent gCorridor := coherent_of_b gCorridor (by decide)
  have hreach : Reach gCorridor ⟨0, 0⟩ ⟨0, 2⟩ :=
    ⟨[⟨0, 0⟩, ⟨0, 1⟩, ⟨0, 2⟩], by decide, by decide, by decide⟩
  exact ⟨hrect, hcoh, by decide, by decide, hreach,
    bfs_shortest_path gCorridor ⟨0, 0⟩ ⟨0, 2⟩ hrect hcoh (by decide) (by decide)
      hreach⟩

/-! ## DFS invariant and C4 -/
theorem dfsPush_fold_ord (cur : Position) :
    ∀ (l : List Position) (acc : DfsSt),
      (l.foldl (dfsPush cur) acc).ord = acc.ord := by
  intro l
  induction l with
  | nil => intro acc; rfl
  | cons hd tl ih =>
      intro acc
      rw [List.foldl_cons, ih]
      unfold dfsPush
      split <;> rfl

theorem dfsPush_par_of_not_mem (cur : Position) (acc : DfsSt) (n : Position)
    (h : n ∉ acc.vis) :
    (dfsPush cur acc n).par =
      (if acc.par n = none then
        (fun q => if q = n then some (some cur) else acc.par q)
      else acc.par) := by
  unfold dfsPush
  rw [if_neg h]

theorem dfsPush_par_dom (cur : Position) (acc : DfsSt) (n p : Position) :
    ((dfsPush cur acc n).par p ≠ none ↔
      (acc.par p ≠ none ∨ (p = n ∧ n ∉ acc.vis))) := by
  by_cases h : n ∈ acc.vis
  · rw [dfsPush_of_mem cur acc n h]
    simp [h]
  · rw [dfsPush_par_of_not_mem cur acc n h]
    by_cases hpar : acc.par n = none
    · rw [if_pos hpar]
      by_cases hpn : p = n
      · subst hpn
        simp [hpar, h]
      · simp [hpn, h]
    · rw [if_neg hpar]
      by_cases hpn : p = n
      · subst hpn
        simp [hpar, h]
      · simp [hpn]

theorem dfsPush_fold_par_dom (cur : Position) :
    ∀ (l : List Position) (acc : DfsSt) (p : Position),
      (((l.reverse).foldl (dfsPush cur) acc).par p ≠ none ↔
        (acc.par p ≠ none ∨ p ∈ l.filter (fun n => n ∉ acc.vis))) := by
  intro l
  induction l with
  | nil =>
      intro acc p
      simp
  | cons hd tl ih =>
      intro acc p
      rw [List.reverse_cons, List.foldl_append]
      simp only [List.foldl_cons, List.foldl_nil]
      have hvis := dfsPush_fold_vis cur tl.reverse acc
      rw [dfsPush_par_dom cur (tl.reverse.foldl (dfsPush cur) acc) hd p, hvis,
        ih acc p]
      simp only [List.filter_cons]
      by_cases h : hd ∈ acc.vis
      · rw [if_neg (by simpa using h)]
        constructor
        · rintro ((h2 | h2) | ⟨_, h3⟩)
          · exact Or.inl h2
          · exact Or.inr h2
          · exact absurd h h3
        · rintro (h2 | h2)
          · exact Or.inl (Or.inl h2)
          · exact Or.inl (Or.inr h2)
      · rw [if_pos (by simpa using h)]
        constructor
        · rintro ((h2 | h2) | ⟨h3, _⟩)
          · exact Or.inl h2
          · exact Or.inr (List.mem_cons_of_mem hd h2)
          · exact Or.inr (h3 ▸ List.mem_cons_self hd _)
        · rintro (h2 | h2)
          · exact Or.inl (Or.inl h2)
          · rcases List.mem_cons.mp h2 with h3 | h3
            · exact Or.inr ⟨h3, h⟩
            · exact Or.inl (Or.inr h3)

theorem getNeighbors_len_le (g : Grid) (p : Position) :
    (getNeighbors g p).length ≤ 4 := by
  unfold getNeighbors
  calc (deltas.filterMap _).length ≤ deltas.length :=
        List.length_filterMap_le _ _
    _ = 4 := rfl

theorem dfsLoop_spec (g : Grid) (s e : Position) :
    ∀ (fuel : Nat) (st : DfsSt), DfsInv g s e st → dfsMeasure g st ≤ fuel →
      ((∀ p ∈ (dfsLoop g e fuel st).vis, Reach g s p) ∧
       (∀ p, p ∈ (dfsLoop g e fuel st).ord ↔ p ∈ (dfsLoop g e fuel st).vis) ∧
       ((e ∈ (dfsLoop g e fuel st).vis ∧ (dfsLoop g e fuel st).par e ≠ none) ∨
        ((dfsLoop g e fuel st).par e = none ∧ e ∉ (dfsLoop g e fuel st).vis ∧
         s ∈ (dfsLoop g e fuel st).vis ∧
         (∀ p ∈ (dfsLoop g e fuel st).vis, ∀ n ∈ getNeighbors g p,
           n ∈ (dfsLoop g e fuel st).vis)))) := by
  have hempty : ∀ (st : DfsSt), DfsInv g s e st → st.stack = [] →
      ((∀ p ∈ st.vis, Reach g s p) ∧
       (∀ p, p ∈ st.ord ↔ p ∈ st.vis) ∧
       ((e ∈ st.vis ∧ st.par e ≠ none) ∨
        (st.par e = none ∧ e ∉ st.vis ∧ s ∈ st.vis ∧
         (∀ p ∈ st.vis, ∀ n ∈ getNeighbors g p, n ∈ st.vis)))) := by
    intro st inv hstk
    have hsv : s ∈ st.vis := by
      rcases inv.hsin with h | h
      · exact h
      · rw [hstk] at h
        exact absurd h (List.not_mem_nil s)
    refine ⟨inv.hreachv, inv.hord, Or.inr ⟨?_, inv.hev, hsv, ?_⟩⟩
    · by_contra hne
      rcases (inv.hpar e).mp hne with h | h | h
      · exact inv.hev (h ▸ hsv)
      · exact inv.hev h
      · rw [hstk] at h
        exact List.not_mem_nil e h
    · intro p hp n hn
      rcases inv.hcl p hp n hn with h | h
      · exact h
      · rw [hstk] at h
        exact absurd h (List.not_mem_nil n)
  intro fuel
  induction fuel with
  | zero =>
      intro st inv hm
      have hstk : st.stack = [] := by
        unfold dfsMeasure at hm
        have : st.stack.length = 0 := by omega
        exact List.length_eq_zero.mp this
      exact hempty st inv hstk
  | succ fuel ih =>
      intro st inv hm
      obtain ⟨stk0, vis0, par0, ord0⟩ := st
      rcases hstk : stk0 with _ | ⟨cur, rest⟩
      · subst hstk
        exact hempty _ inv rfl
      · subst hstk
        by_cases hcv : cur ∈ vis0
        · have hred : dfsLoop g e (fuel+1) ⟨cur :: rest, vis0, par0, ord0⟩ =
              dfsLoop g e fuel ⟨rest, vis0, par0, ord0⟩ := by
            simp only [dfsLoop, hcv, if_true]
          rw [hred]
          have inv1 : DfsInv g s e ⟨rest, vis0, par0, ord0⟩ := by
            refine ⟨inv.hvb, ?_, inv.hreachv, ?_, ?_, ?_, inv.hord, ?_, inv.hev⟩
            · intro p hp
              exact inv.hstkb p (List.mem_cons_of_mem cur hp)
            · intro p hp
              exact inv.hreachs p (List.mem_cons_of_mem cur hp)
            · intro p hp n hn
              rcases inv.hcl p hp n hn with h | h
              · exact Or.inl h
              · rcases List.mem_cons.mp h with h2 | h2
                · exact Or.inl (h2 ▸ hcv)
                · exact Or.inr h2
            · intro p
              rw [inv.hpar p]
              constructor
              · rintro (h | h | h)
                · exact Or.inl h
                · exact Or.inr (Or.inl h)
                · rcases List.mem_cons.mp h with h2 | h2
                  · exact Or.inr (Or.inl (h2 ▸ hcv))
                  · exact Or.inr (Or.inr h2)
              · rintro (h | h | h)
                · exact Or.inl h
                · exact Or.inr (Or.inl h)
                · exact Or.inr (Or.inr (List.mem_cons_of_mem cur h))
            · rcases inv.hsin with h | h
              · exact Or.inl h
              · rcases List.mem_cons.mp h with h2 | h2
                · exact Or.inl (h2 ▸ hcv)
                · exact Or.inr h2
          have hm1 : dfsMeasure g ⟨rest, vis0, par0, ord0⟩ ≤ fuel := by
            have hm2 : 5 * ((allPos g).filter (fun p => p ∉ vis0)).card +
                (cur :: rest).length ≤ fuel + 1 := hm
            have hgl : dfsMeasure g (⟨rest, vis0, par0, ord0⟩ : DfsSt) =
                5 * ((allPos g).filter (fun p => p ∉ vis0)).card +
                  rest.length := rfl
            rw [hgl]
            simp only [List.length_cons] at hm2
            omega
          exact ih _ inv1 hm1
        · by_cases hce : cur = e
          · have hce2 : e = cur := hce.symm
            subst hce2
            have hred : dfsLoop g e (fuel+1) ⟨e :: rest, vis0, par0, ord0⟩ =
                ⟨rest, insert e vis0, par0, ord0 ++ [e]⟩ := by
              simp only [dfsLoop, hcv, if_false, if_pos]
            rw [hred]
            refine ⟨?_, ?_, Or.inl ⟨Finset.mem_insert_self e vis0, ?_⟩⟩
            · intro p hp
              rcases Finset.mem_insert.mp hp with h | h
              · exact h ▸ inv.hreachs e (List.mem_cons_self e rest)
              · exact inv.hreachv p h
            · intro p
              simp only [List.mem_append, List.mem_singleton, Finset.mem_insert]
              rw [inv.hord p]
              tauto
            · rw [show (⟨rest, insert e vis0, par0, ord0 ++ [e]⟩ : DfsSt).par =
                par0 from rfl]
              exact (inv.hpar e).mpr (Or.inr (Or.inr (List.mem_cons_self e rest)))
          · have hred : dfsLoop g e (fuel+1) ⟨cur :: rest, vis0, par0, ord0⟩ =
                dfsLoop g e fuel (dfsExpand g cur
                  ⟨rest, insert cur vis0, par0, ord0 ++ [cur]⟩) := by
              simp only [dfsLoop]
              rw [if_neg hcv, if_neg hce]
            rw [hred]
            have hstael := dfsPush_fold_stack cur (getNeighbors g cur)
              ⟨rest, insert cur vis0, par0, ord0 ++ [cur]⟩
            have hvisel := dfsPush_fold_vis cur (getNeighbors g cur).reverse
              ⟨rest, insert cur vis0, par0, ord0 ++ [cur]⟩
            have hordel := dfsPush_fold_ord cur (getNeighbors g cur).reverse
              ⟨rest, insert cur vis0, par0, ord0 ++ [cur]⟩
            have hparel := dfsPush_fold_par_dom cur (getNeighbors g cur)
              ⟨rest, insert cur vis0, par0, ord0 ++ [cur]⟩
            have hstE : dfsExpand g cur
                ⟨rest, insert cur vis0, par0, ord0 ++ [cur]⟩ =
                ((getNeighbors g cur).reverse).foldl (dfsPush cur)
                  ⟨rest, insert cur vis0, par0, ord0 ++ [cur]⟩ := rfl
            rw [← hstE] at hstael hvisel hordel
            simp only at hstael hvisel hordel
            have hparel2 : ∀ p, (dfsExpand g cur
                ⟨rest, insert cur vis0, par0, ord0 ++ [cur]⟩).par p ≠ none ↔
                (par0 p ≠ none ∨
                  p ∈ (getNeighbors g cur).filter
                    (fun n => n ∉ insert cur vis0)) := by
              intro p
              rw [hstE]
              exact hparel p
            have hcura : cur ∈ allPos g :=
              inv.hstkb cur (List.mem_cons_self cur rest)
            have hreachcur : Reach g s cur :=
              inv.hreachs cur (List.mem_cons_self cur rest)
            have inv2 : DfsInv g s e (dfsExpand g cur
                ⟨rest, insert cur vis0, par0, ord0 ++ [cur]⟩) := by
              refine ⟨?_, ?_, ?_, ?_, ?_, ?_, ?_, ?_, ?_⟩
              · intro p hp
                rw [hvisel] at hp
                rcases Finset.mem_insert.mp hp with h | h
                · exact h ▸ hcura
                · exact inv.hvb p h
              · intro p hp
                rw [hstael] at hp
                rcases List.mem_append.mp hp with h | h
                · exact getNeighbors_mem_allPos g cur p
                    (List.mem_of_mem_filter h)
                · exact inv.hstkb p (List.mem_cons_of_mem cur h)
              · intro p hp
                rw [hvisel] at hp
                rcases Finset.mem_insert.mp hp with h | h
                · exact h ▸ hreachcur
                · exact inv.hreachv p h
              · intro p hp
                rw [hstael] at hp
                rcases List.mem_append.mp hp with h | h
                · rcases hreachcur with ⟨l, hw⟩
                  exact ⟨l ++ [p], walkFrom_snoc g s cur p l hw
                    (List.mem_of_mem_filter h)⟩
                · exact inv.hreachs p (List.mem_cons_of_mem cur h)
              · intro p hp n hn
                rw [hvisel] at hp
                rw [hvisel, hstael]
                rcases Finset.mem_insert.mp hp with h | h
                · subst h
                  by_cases hnv : n ∈ insert p vis0
                  · exact Or.inl hnv
                  · refine Or.inr (List.mem_append_left rest ?_)
                    rw [List.mem_filter]
                    exact ⟨hn, by simpa using hnv⟩
                · rcases inv.hcl p h n hn with h2 | h2
                  · exact Or.inl (Finset.mem_insert_of_mem h2)
                  · rcases List.mem_cons.mp h2 with h3 | h3
                    · exact Or.inl (h3 ▸ Finset.mem_insert_self cur vis0)
                    · exact Or.inr (List.mem_append_right _ h3)
              · intro p
                rw [hparel2 p, hvisel, hstael, inv.hpar p]
                constructor
                · rintro ((h | h | h) | h)
                  · exact Or.inl h
                  · exact Or.inr (Or.inl (Finset.mem_insert_of_mem h))
                  · rcases List.mem_cons.mp h with h2 | h2
                    · exact Or.inr (Or.inl (h2 ▸ Finset.mem_insert_self cur vis0))
                    · exact Or.inr (Or.inr (List.mem_append_right _ h2))
                  · exact Or.inr (Or.inr (List.mem_append_left rest h))
                · rintro (h | h | h)
                  · exact Or.inl (Or.inl h)
                  · rcases Finset.mem_insert.mp h with h2 | h2
                    · exact Or.inl (Or.inr (Or.inr
                        (h2 ▸ List.mem_cons_self cur rest)))
                    · exact Or.inl (Or.inr (Or.inl h2))
                  · rcases List.mem_append.mp h with h2 | h2
                    · exact Or.inr h2
                    · exact Or.inl (Or.inr (Or.inr (List.mem_cons_of_mem cur h2)))
              · intro p
                rw [hordel, hvisel]
                simp only [List.mem_append, List.mem_singleton]
                rw [inv.hord p, Finset.mem_insert]
                tauto
              · rw [hvisel, hstael]
                rcases inv.hsin with h | h
                · exact Or.inl (Finset.mem_insert_of_mem h)
                · rcases List.mem_cons.mp h with h2 | h2
                  · exact Or.inl (h2 ▸ Finset.mem_insert_self cur vis0)
                  · exact Or.inr (List.mem_append_right _ h2)
              · rw [hvisel]
                intro hcontra
                rcases Finset.mem_insert.mp hcontra with h | h
                · exact hce h.symm
                · exact inv.hev h
            have hm2 : dfsMeasure g (dfsExpand g cur
                ⟨rest, insert cur vis0, par0, ord0 ++ [cur]⟩) ≤ fuel := by
              have hdrop := unvis_card_drop g vis0 [cur] (List.nodup_singleton cur)
                (fun b hb => by
                  rcases List.mem_singleton.mp hb with rfl
                  exact ⟨hcv, hcura⟩)
              have h0 : ([cur] : List Position).toFinset = {cur} := by simp
              have hins : vis0 ∪ [cur].toFinset = insert cur vis0 := by
                rw [h0, Finset.union_comm, ← Finset.insert_eq]
              rw [hins] at hdrop
              simp only [List.length_singleton] at hdrop
              have hm3 : 5 * ((allPos g).filter (fun p => p ∉ vis0)).card +
                  (cur :: rest).length ≤ fuel + 1 := hm
              simp only [List.length_cons] at hm3
              have hfl : ((getNeighbors g cur).filter
                  (fun n => n ∉ insert cur vis0)).length ≤ 4 := by
                calc ((getNeighbors g cur).filter _).length ≤
                    (getNeighbors g cur).length := List.length_filter_le _ _
                  _ ≤ 4 := getNeighbors_len_le g cur
              unfold dfsMeasure
              rw [hstael, hvisel]
              simp only [List.length_append]
              omega
            exact ih _ inv2 hm2

theorem dfs_init_inv (g : Grid) (s e : Position) (hsp : s ∈ allPos g) :
    DfsInv g s e ⟨[s], ∅, (fun p => if p = s then some none else none), []⟩ := by
  refine ⟨?_, ?_, ?_, ?_, ?_, ?_, ?_, ?_, ?_⟩
  · intro p hp
    exact absurd hp (Finset.not_mem_empty p)
  · intro p hp
    rw [List.mem_singleton] at hp
    exact hp ▸ hsp
  · intro p hp
    exact absurd hp (Finset.not_mem_empty p)
  · intro p hp
    rw [List.mem_singleton] at hp
    exact ⟨[p], hp ▸ walkFrom_single g s⟩
  · intro p hp
    exact absurd hp (Finset.not_mem_empty p)
  · intro p
    by_cases hps : p = s
    · subst hps
      simp
    · simp [hps, Finset.not_mem_empty]
  · intro p
    simp [Finset.not_mem_empty]
  · exact Or.inr (List.mem_singleton_self s)
  · exact Finset.not_mem_empty e

theorem dfs_init_measure (g : Grid) (s : Position) :
    dfsMeasure g ⟨[s], ∅, (fun p => if p = s then some none else none), []⟩ ≤
      dfsFuel g := by
  unfold dfsMeasure dfsFuel
  have h1 : ((allPos g).filter
      (fun p => p ∉ (∅ : Finset Position))).card ≤ (allPos g).card :=
    Finset.card_filter_le _ _
  have h2 := allPos_card_le g
  simp only [List.length_singleton]
  omega

/-- C4: for a well-formed grid with one `start` and one `end`, each solver
returns a null path exactly when the end is unreachable from the start
through non-wall cells, and in the null case `visitedOrder` holds exactly
the connected component of the start. -/
theorem solvers_null_iff_unreachable (g : Grid) (s e : Position)
    (hrect : Rect g) (hcoh : Coherent g)
    (hs : startCells g = [s]) (he : endCells g = [e]) :
    (∃ res, bfs g = some res ∧
      (res.path = none ↔ ¬ Reach g s e) ∧
      (res.path = none → ∀ p, p ∈ res.visitedOrder ↔ Reach g s p)) ∧
    (∃ res, dfs g = some res ∧
      (res.path = none ↔ ¬ Reach g s e) ∧
      (res.path = none → ∀ p, p ∈ res.visitedOrder ↔ Reach g s p)) := by
  have hfse := findStartEnd_of_unique g s e hs he
  have hsp := start_mem_allPos g s hrect hcoh hs
  constructor
  · -- BFS
    rcases bfsLoop_spec g s e (gridFuel g)
      ⟨[s], {s}, (fun p => if p = s then some none else none), []⟩
      (fun _ => 0) 0 (bfs_init_inv g s e hsp) (bfs_init_measure g s) with
      ⟨d', hout, hag, hsub, hcase⟩
    rcases hpe : (bfsLoop g e (gridFuel g)
        ⟨[s], {s}, (fun p => if p = s then some none else none), []⟩).par e with
      _ | v
    · have hev : e ∉ (bfsLoop g e (gridFuel g)
          ⟨[s], {s}, (fun p => if p = s then some none else none), []⟩).vis := by
        intro hc
        exact ((hout.hpdom e).mpr hc) hpe
      rcases hcase with hc | ⟨_, _, hcl, hpart2⟩
      · exact absurd hc hev
      · refine ⟨⟨none, (bfsLoop g e (gridFuel g)
          ⟨[s], {s}, (fun p => if p = s then some none else none), []⟩).ord⟩,
          ?_, ?_, ?_⟩
        · unfold bfs
          rw [hfse]
          simp only [hpe]
        · simp only [true_iff]
          intro hre
          exact hev (reach_subset_closed g s _ hout.hsvis hcl e hre)
        · intro _ p
          rw [← hpart2 p]
          constructor
          · intro hp
            rcases chain_realizes g s d' _ hout.hds hout.hps hout.hchain
              (d' p) p hp le_rfl with ⟨l, hw, _, _, _, _⟩
            exact ⟨l, hw⟩
          · intro hre
            exact reach_subset_closed g s _ hout.hsvis hcl p hre
    · have hev : e ∈ (bfsLoop g e (gridFuel g)
          ⟨[s], {s}, (fun p => if p = s then some none else none), []⟩).vis :=
        (hout.hpdom e).mp (by rw [hpe]; simp)
      have hre : Reach g s e := by
        rcases chain_realizes g s d' _ hout.hds hout.hps hout.hchain
          (d' e) e hev le_rfl with ⟨l, hw, _, _, _, _⟩
        exact ⟨l, hw⟩
      refine ⟨⟨some ((chainFrom (bfsLoop g e (gridFuel g)
          ⟨[s], {s}, (fun p => if p = s then some none else none), []⟩).par
          (gridFuel g) e).reverse),
        (bfsLoop g e (gridFuel g)
          ⟨[s], {s}, (fun p => if p = s then some none else none), []⟩).ord⟩,
        ?_, ?_, ?_⟩
      · unfold bfs
        rw [hfse]
        simp only [hpe]
      · simp only []
        constructor
        · intro hc
          exact absurd hc (by simp)
        · intro hc
          exact absurd hre hc
      · intro hc
        exact absurd hc (by simp)
  · -- DFS
    rcases dfsLoop_spec g s e (dfsFuel g)
      ⟨[s], ∅, (fun p => if p = s then some none else none), []⟩
      (dfs_init_inv g s e hsp) (dfs_init_measure g s) with
      ⟨hreachv, hordiff, hcase⟩
    rcases hpe : (dfsLoop g e (dfsFuel g)
        ⟨[s], ∅, (fun p => if p = s then some none else none), []⟩).par e with
      _ | v
    · rcases hcase with ⟨_, hpne⟩ | ⟨_, hev2, hsv, hcl2⟩
      · exact absurd hpe hpne
      · refine ⟨⟨none, (dfsLoop g e (dfsFuel g)
          ⟨[s], ∅, (fun p => if p = s then some none else none), []⟩).ord⟩,
          ?_, ?_, ?_⟩
        · unfold dfs
          rw [hfse]
          simp only [hpe]
        · simp only [true_iff]
          intro hre
          exact hev2 (reach_subset_closed g s _ hsv hcl2 e hre)
        · intro _ p
          rw [hordiff p]
          constructor
          · intro hp
            exact hreachv p hp
          · intro hre
            exact reach_subset_closed g s _ hsv hcl2 p hre
    · have hev : e ∈ (dfsLoop g e (dfsFuel g)
          ⟨[s], ∅, (fun p => if p = s then some none else none), []⟩).vis := by
        rcases hcase with ⟨h1, _⟩ | ⟨h1, _, _, _⟩
        · exact h1
        · exact absurd hpe (by rw [h1]; simp)
      have hre : Reach g s e := hreachv e hev
      refine ⟨⟨some ((chainFrom (dfsLoop g e (dfsFuel g)
          ⟨[s], ∅, (fun p => if p = s then some none else none), []⟩).par
          (gridFuel g) e).reverse),
        (dfsLoop g e (dfsFuel g)
          ⟨[s], ∅, (fun p => if p = s then some none else none), []⟩).ord⟩,
        ?_, ?_, ?_⟩
      · unfold dfs
        rw [hfse]
        simp only [hpe]
      · constructor
        · intro hc
          exact absurd hc (by simp)
        · intro hc
          exact absurd hre hc
      · intro hc
        exact absurd hc (by simp)

/-- Witness for C4 on the corridor grid. -/
theorem solvers_null_iff_unreachable_witness :
    Rect gCorridor ∧ Coherent gCorridor ∧
    startCells gCorridor = [⟨0, 0⟩] ∧ endCells gCorridor = [⟨0, 2⟩] ∧
    ((∃ res, bfs gCorridor = some res ∧
      (res.path = none ↔ ¬ Reach gCorridor ⟨0, 0⟩ ⟨0, 2⟩) ∧
      (res.path = none → ∀ p, p ∈ res.visitedOrder ↔ Reach gCorridor ⟨0, 0⟩ p)) ∧
     (∃ res, dfs gCorridor = some res ∧
      (res.path = none ↔ ¬ Reach gCorridor ⟨0, 0⟩ ⟨0, 2⟩) ∧
      (res.path = none → ∀ p, p ∈ res.visitedOrder ↔
        Reach gCorridor ⟨0, 0⟩ p))) := by
  have hrect : Rect gCorridor := by
    constructor
    · simp [gCorridor]
    · intro row hrow
      simp only [gCorridor, List.mem_singleton] at hrow
      rw [hrow]
      rfl
  have hcoh : Coherent gCorridor := coherent_of_b gCorridor (by decide)
  exact ⟨hrect, hcoh, by decide, by decide,
    solvers_null_iff_unreachable gCorridor ⟨0, 0⟩ ⟨0, 2⟩ hrect hcoh
      (by decide) (by decide)⟩

theorem adjRooms_ne (p q : Nat × Nat) (h : AdjRooms p q) : p ≠ q := by
  intro he
  subst he
  simp only [AdjRooms] at h
  omega

theorem mem_midPositions (R C : Nat) (w : Nat × Nat) :
    w ∈ midPositions R C ↔
      ((∃ a b : Nat, a < R ∧ b + 1 < C ∧ w = (2 * a + 1, 2 * b + 2)) ∨
       (∃ a b : Nat, a + 1 < R ∧ b < C ∧ w = (2 * a + 2, 2 * b + 1))) := by
  simp only [midPositions, Finset.mem_union, Finset.mem_image, Finset.mem_product,
    Finset.mem_range]
  constructor
  · rintro (⟨⟨a, b⟩, ⟨ha, hb⟩, rfl⟩ | ⟨⟨a, b⟩, ⟨ha, hb⟩, rfl⟩)
    · exact Or.inl ⟨a, b, ha, by omega, rfl⟩
    · exact Or.inr ⟨a, b, by omega, hb, rfl⟩
  · rintro (⟨a, b, ha, hb, rfl⟩ | ⟨a, b, ha, hb, rfl⟩)
    · exact Or.inl ⟨⟨a, b⟩, ⟨ha, by omega⟩, rfl⟩
    · exact Or.inr ⟨⟨a, b⟩, ⟨by omega, hb⟩, rfl⟩

theorem mid_mem_midPositions (R C : Nat) (p q : Nat × Nat) (h : AdjRooms p q)
    (hp1 : p.1 < R) (hp2 : p.2 < C) (hq1 : q.1 < R) (hq2 : q.2 < C) :
    (p.1 + q.1 + 1, p.2 + q.2 + 1) ∈ midPositions R C := by
  rw [mem_midPositions]
  rcases h with ⟨h1, h2 | h2⟩ | ⟨h1, h2 | h2⟩
  · exact Or.inl ⟨p.1, p.2, hp1, by omega, by simp only [Prod.mk.injEq]; omega⟩
  · exact Or.inl ⟨p.1, q.2, hp1, by omega, by simp only [Prod.mk.injEq]; omega⟩
  · exact Or.inr ⟨p.1, p.2, by omega, hp2, by simp only [Prod.mk.injEq]; omega⟩
  · exact Or.inr ⟨q.1, p.2, by omega, hp2, by simp only [Prod.mk.injEq]; omega⟩

theorem mid_not_room (p q n : Nat × Nat) (h : AdjRooms p q) :
    ¬(p.1 + q.1 + 1 = 2 * n.1 + 1 ∧ p.2 + q.2 + 1 = 2 * n.2 + 1) := by
  simp only [AdjRooms] at h
  omega

theorem mid_inj (p q a b : Nat × Nat) (hpq : AdjRooms p q) (hab : AdjRooms a b)
    (e1 : a.1 + b.1 + 1 = p.1 + q.1 + 1) (e2 : a.2 + b.2 + 1 = p.2 + q.2 + 1) :
    (a = p ∧ b = q) ∨ (a = q ∧ b = p) := by
  simp only [AdjRooms] at hpq hab
  simp only [Prod.ext_iff]
  omega

theorem openMids_congr (R C : Nat) (f g : Nat → Nat → CellType)
    (h : ∀ w ∈ midPositions R C, f w.1 w.2 = g w.1 w.2) :
    openMids R C f = openMids R C g := by
  unfold openMids
  congr 1
  apply Finset.filter_congr
  intro w hw
  rw [h w hw]

theorem openMids_setT_room (R C : Nat) (f : Nat → Nat → CellType) (r0 c0 : Nat)
    (t : CellType) :
    openMids R C (setT f (2 * r0 + 1) (2 * c0 + 1) t) = openMids R C f := by
  apply openMids_congr
  intro w hw
  rw [mem_midPositions] at hw
  have hx : ¬(w.1 = 2 * r0 + 1 ∧ w.2 = 2 * c0 + 1) := by
    rcases hw with ⟨a, b, ha, hb, rfl⟩ | ⟨a, b, ha, hb, rfl⟩ <;> dsimp only <;> omega
  simp only [setT]
  rw [if_neg hx]

theorem openMids_setT_mid (R C : Nat) (f : Nat → Nat → CellType) (w1 w2 : Nat)
    (hw0 : (w1, w2) ∈ midPositions R C) (hcl : f w1 w2 ≠ CellType.passage) :
    openMids R C (setT f w1 w2 CellType.passage) = openMids R C f + 1 := by
  unfold openMids
  have hstep : (midPositions R C).filter
      (fun w => setT f w1 w2 CellType.passage w.1 w.2 = CellType.passage) =
      insert (w1, w2) ((midPositions R C).filter
        (fun w => f w.1 w.2 = CellType.passage)) := by
    ext w
    simp only [Finset.mem_filter, Finset.mem_insert, setT]
    constructor
    · rintro ⟨hw, hv⟩
      by_cases he : w.1 = w1 ∧ w.2 = w2
      · exact Or.inl (Prod.ext_iff.mpr he)
      · rw [if_neg he] at hv
        exact Or.inr ⟨hw, hv⟩
    · rintro (rfl | ⟨hw, hv⟩)
      · exact ⟨hw0, by rw [if_pos ⟨rfl, rfl⟩]⟩
      · refine ⟨hw, ?_⟩
        by_cases he : w.1 = w1 ∧ w.2 = w2
        · exfalso
          apply hcl
          rw [← he.1, ← he.2]
          exact hv
        · rw [if_neg he]
          exact hv
  rw [hstep, Finset.card_insert_of_not_mem]
  simp only [Finset.mem_filter]
  rintro ⟨_, hv⟩
  exact hcl hv

theorem unvisRC_mono (R C : Nat) (v0 v1 : Finset (Nat × Nat)) (h : v0 ⊆ v1) :
    unvisRC R C v1 ≤ unvisRC R C v0 := by
  apply Finset.card_le_card
  intro q hq
  simp only [Finset.mem_filter] at hq ⊢
  exact ⟨hq.1, fun hmem => hq.2 (h hmem)⟩

theorem unvisRC_insert (R C : Nat) (vis : Finset (Nat × Nat)) (p : Nat × Nat)
    (h1 : p.1 < R) (h2 : p.2 < C) (hp : p ∉ vis) :
    unvisRC R C (insert p vis) + 1 = unvisRC R C vis := by
  unfold unvisRC
  have hstep : (Finset.range R ×ˢ Finset.range C).filter (fun q => q ∉ vis) =
      insert p ((Finset.range R ×ˢ Finset.range C).filter
        (fun q => q ∉ insert p vis)) := by
    ext q
    simp only [Finset.mem_filter, Finset.mem_insert, not_or]
    constructor
    · rintro ⟨hq, hnv⟩
      by_cases he : q = p
      · exact Or.inl he
      · exact Or.inr ⟨hq, he, hnv⟩
    · rintro (rfl | ⟨hq, hne, hnv⟩)
      · refine ⟨?_, hp⟩
        simp only [Finset.mem_product, Finset.mem_range]
        exact ⟨h1, h2⟩
      · exact ⟨hq, hnv⟩
  rw [hstep, Finset.card_insert_of_not_mem]
  intro hmem
  rw [Finset.mem_filter] at hmem
  exact hmem.2 (Finset.mem_insert_self p vis)

theorem unvisRC_empty (R C : Nat) : unvisRC R C (∅ : Finset (Nat × Nat)) = R * C := by
  unfold unvisRC
  rw [Finset.filter_true_of_mem]
  · rw [Finset.card_product]
    simp [Finset.card_range]
  · intro q _
    exact Finset.not_mem_empty q

theorem unvisRC_pos (R C : Nat) (vis : Finset (Nat × Nat)) (p : Nat × Nat)
    (h1 : p.1 < R) (h2 : p.2 < C) (hp : p ∉ vis) : 0 < unvisRC R C vis := by
  apply Finset.card_pos.mpr
  refine ⟨p, ?_⟩
  simp only [Finset.mem_filter, Finset.mem_product, Finset.mem_range]
  exact ⟨⟨h1, h2⟩, hp⟩

theorem shuffleDirs_mem (rng : Nat → Nat) (ctr : Nat) :
    (∀ d ∈ (shuffleDirs rng ctr).1, d ∈ dirs0) ∧
    (∀ d ∈ dirs0, d ∈ (shuffleDirs rng ctr).1) := by
  have key : ∀ j0 j1 j2 : Nat, j0 < 4 → j1 < 3 → j2 < 2 →
      (∀ d ∈ listSwap (listSwap (listSwap dirs0 3 j0) 2 j1) 1 j2, d ∈ dirs0) ∧
      (∀ d ∈ dirs0, d ∈ listSwap (listSwap (listSwap dirs0 3 j0) 2 j1) 1 j2) := by
    intro j0 j1 j2 h0 h1 h2
    interval_cases j0 <;> interval_cases j1 <;> interval_cases j2 <;> decide
  exact key _ _ _ (Nat.mod_lt _ (by omega)) (Nat.mod_lt _ (by omega))
    (Nat.mod_lt _ (by omega))

theorem dir_adj (p n : Nat × Nat) (d : Int × Int) (hd : d ∈ dirs0)
    (h1 : (n.1 : Int) = (p.1 : Int) + d.1) (h2 : (n.2 : Int) = (p.2 : Int) + d.2) :
    AdjRooms p n := by
  simp only [AdjRooms]
  fin_cases hd <;> dsimp only at h1 h2 <;> omega

theorem adj_dir (p q : Nat × Nat) (h : AdjRooms p q) :
    ∃ d ∈ dirs0, (q.1 : Int) = (p.1 : Int) + d.1 ∧ (q.2 : Int) = (p.2 : Int) + d.2 := by
  rcases h with ⟨h1, h2 | h2⟩ | ⟨h1, h2 | h2⟩
  · refine ⟨(0, 1), by decide, ?_, ?_⟩
    · change (q.1 : Int) = (p.1 : Int) + 0
      omega
    · change (q.2 : Int) = (p.2 : Int) + 1
      omega
  · refine ⟨(0, -1), by decide, ?_, ?_⟩
    · change (q.1 : Int) = (p.1 : Int) + 0
      omega
    · change (q.2 : Int) = (p.2 : Int) + (-1)
      omega
  · refine ⟨(1, 0), by decide, ?_, ?_⟩
    · change (q.1 : Int) = (p.1 : Int) + 1
      omega
    · change (q.2 : Int) = (p.2 : Int) + 0
      omega
  · refine ⟨(-1, 0), by decide, ?_, ?_⟩
    · change (q.1 : Int) = (p.1 : Int) + (-1)
      omega
    · change (q.2 : Int) = (p.2 : Int) + 0
      omega

theorem newClosed_trans (R C : Nat) (v0 v1 v2 : Finset (Nat × Nat))
    (h12 : v1 ⊆ v2) (a : NewClosed R C v0 v1) (b : NewClosed R C v1 v2) :
    NewClosed R C v0 v2 := by
  intro v hv2 hv0 q hadj hq1 hq2
  by_cases h : v ∈ v1
  · exact h12 (a v h hv0 q hadj hq1 hq2)
  · exact b v hv2 h q hadj hq1 hq2

theorem carveInv_congr (R C : Nat) (st st' : CarveSt)
    (pr : Nat × Nat → Option (Nat × Nat)) (rk : Nat × Nat → Nat)
    (hv : st.vis = st'.vis) (hf : st.cellT = st'.cellT)
    (h : CarveInv R C st pr rk) : CarveInv R C st' pr rk := by
  obtain ⟨v1, f1, c1⟩ := st
  obtain ⟨v2, f2, c2⟩ := st'
  simp only at hv hf
  subst hv
  subst hf
  exact ⟨h.hroot, h.hvsub, h.hopen, h.hprv, h.hprr, h.hprd, h.hpro, h.hrkb, h.hcnt⟩

theorem carveInv_extend (R C : Nat) (st : CarveSt) (p n : Nat × Nat)
    (pr : Nat × Nat → Option (Nat × Nat)) (rk : Nat × Nat → Nat)
    (hinv : CarveInv R C st pr rk)
    (hp : p ∈ st.vis) (hn : n ∉ st.vis) (hadj : AdjRooms p n)
    (hn1 : n.1 < R) (hn2 : n.2 < C) :
    CarveInv R C
      (markRoom { st with
        cellT := setT st.cellT (p.1 + n.1 + 1) (p.2 + n.2 + 1) CellType.passage } n)
      (fun x => if x = n then some p else pr x)
      (fun x => if x = n then st.vis.card else rk x) := by
  have hp1 : p.1 < R := (hinv.hvsub p hp).1
  have hp2 : p.2 < C := (hinv.hvsub p hp).2
  have hpn : p ≠ n := fun he => hn (he ▸ hp)
  have hprn : pr n = none := hinv.hpro n hn
  have hprpn : pr p ≠ some n := fun hc => hn (hinv.hprv p n hc).2.1
  have hvis2 : (markRoom { st with
      cellT := setT st.cellT (p.1 + n.1 + 1) (p.2 + n.2 + 1) CellType.passage }
      n).vis = insert n st.vis := rfl
  have hcell2 : (markRoom { st with
      cellT := setT st.cellT (p.1 + n.1 + 1) (p.2 + n.2 + 1) CellType.passage }
      n).cellT = setT (setT st.cellT (p.1 + n.1 + 1) (p.2 + n.2 + 1)
        CellType.passage) (2 * n.1 + 1) (2 * n.2 + 1) CellType.passage := rfl
  refine ⟨?_, ?_, ?_, ?_, ?_, ?_, ?_, ?_, ?_⟩
  · rw [hvis2]
    exact Finset.mem_insert_of_mem hinv.hroot
  · rw [hvis2]
    intro q hq
    rcases Finset.mem_insert.mp hq with rfl | hq
    · exact ⟨hn1, hn2⟩
    · exact hinv.hvsub q hq
  · rw [hcell2]
    intro a b hab ha1 ha2 hb1 hb2
    simp only [setT]
    rw [if_neg (mid_not_room a b n hab)]
    by_cases hmid : a.1 + b.1 + 1 = p.1 + n.1 + 1 ∧ a.2 + b.2 + 1 = p.2 + n.2 + 1
    · rw [if_pos hmid]
      rcases mid_inj p n a b hadj hab hmid.1 hmid.2 with ⟨rfl, rfl⟩ | ⟨rfl, rfl⟩
      · constructor
        · intro _
          left
          rw [if_pos rfl]
        · intro _
          rfl
      · constructor
        · intro _
          right
          rw [if_pos rfl]
        · intro _
          rfl
    · rw [if_neg hmid]
      rw [hinv.hopen a b hab ha1 ha2 hb1 hb2]
      by_cases hbn : b = n
      · have han : ¬(a = n) := fun he => adjRooms_ne a b hab (by rw [he, hbn])
        rw [if_pos hbn, if_neg han]
        have hprb : pr b = none := by rw [hbn]; exact hprn
        constructor
        · rintro (hc | hc)
          · rw [hprb] at hc
            exact absurd hc (by simp)
          · exfalso
            have hbv : b ∈ st.vis := (hinv.hprv a b hc).2.1
            rw [hbn] at hbv
            exact hn hbv
        · rintro (hc | hc)
          · exfalso
            apply hmid
            have hap : p = a := Option.some.inj hc
            rw [← hap, hbn]
            exact ⟨rfl, rfl⟩
          · exfalso
            have hbv : b ∈ st.vis := (hinv.hprv a b hc).2.1
            rw [hbn] at hbv
            exact hn hbv
      · rw [if_neg hbn]
        by_cases han : a = n
        · rw [if_pos han]
          have hpra : pr a = none := by rw [han]; exact hprn
          constructor
          · rintro (hc | hc)
            · exfalso
              have hav : a ∈ st.vis := (hinv.hprv b a hc).2.1
              rw [han] at hav
              exact hn hav
            · rw [hpra] at hc
              exact absurd hc (by simp)
          · rintro (hc | hc)
            · exfalso
              have hav : a ∈ st.vis := (hinv.hprv b a hc).2.1
              rw [han] at hav
              exact hn hav
            · exfalso
              apply hmid
              have hbp : p = b := Option.some.inj hc
              rw [← hbp, han]
              exact ⟨by omega, by omega⟩
        · rw [if_neg han]
  · intro w z h
    by_cases hwn : w = n
    · rw [if_pos hwn] at h
      have hz : p = z := Option.some.inj h
      subst hz
      have hwn2 : n = w := hwn.symm
      subst hwn2
      refine ⟨?_, ?_, hadj, ?_⟩
      · rw [hvis2]
        exact Finset.mem_insert_self _ _
      · rw [hvis2]
        exact Finset.mem_insert_of_mem hp
      · rw [if_neg hpn, if_pos rfl]
        exact hinv.hrkb p hp
    · rw [if_neg hwn] at h
      obtain ⟨hqv, hpv, hadj2, hrk⟩ := hinv.hprv w z h
      have hzn : z ≠ n := fun he => hn (he ▸ hpv)
      refine ⟨?_, ?_, hadj2, ?_⟩
      · rw [hvis2]
        exact Finset.mem_insert_of_mem hqv
      · rw [hvis2]
        exact Finset.mem_insert_of_mem hpv
      · rw [if_neg hzn, if_neg hwn]
        exact hrk
  · have hn00 : ¬(((0, 0) : Nat × Nat) = n) := fun he => hn (he ▸ hinv.hroot)
    rw [if_neg hn00]
    exact hinv.hprr
  · intro q hq hq0
    rw [hvis2] at hq
    by_cases hqn : q = n
    · rw [if_pos hqn]
      simp
    · rw [if_neg hqn]
      rcases Finset.mem_insert.mp hq with he | hq2
      · exact absurd he hqn
      · exact hinv.hprd q hq2 hq0
  · intro q hq
    rw [hvis2] at hq
    have h1 : ¬(q = n) := fun he => hq (he ▸ Finset.mem_insert_self n st.vis)
    have h2 : q ∉ st.vis := fun he => hq (Finset.mem_insert_of_mem he)
    rw [if_neg h1]
    exact hinv.hpro q h2
  · intro q hq
    rw [hvis2] at hq
    rw [hvis2, Finset.card_insert_of_not_mem hn]
    by_cases hqn : q = n
    · rw [if_pos hqn]
      omega
    · rw [if_neg hqn]
      rcases Finset.mem_insert.mp hq with he | hq2
      · exact absurd he hqn
      · have := hinv.hrkb q hq2
        omega
  · rw [hvis2, hcell2, Finset.card_insert_of_not_mem hn]
    have hmidmem := mid_mem_midPositions R C p n hadj hp1 hp2 hn1 hn2
    have hclosed : st.cellT (p.1 + n.1 + 1) (p.2 + n.2 + 1) ≠ CellType.passage := by
      intro hc
      rw [hinv.hopen p n hadj hp1 hp2 hn1 hn2] at hc
      rcases hc with hc | hc
      · rw [hprn] at hc
        exact absurd hc (by simp)
      · exact hprpn hc
    rw [openMids_setT_room, openMids_setT_mid R C st.cellT _ _ hmidmem hclosed]
    have := hinv.hcnt
    omega

theorem carveInv_init (R C : Nat) (hR : 0 < R) (hC : 0 < C) :
    CarveInv R C (markRoom initCarveSt (0, 0)) (fun _ => none) (fun _ => 0) := by
  have hvis : (markRoom initCarveSt (0, 0)).vis =
      insert ((0, 0) : Nat × Nat) ∅ := rfl
  have hcell : (markRoom initCarveSt (0, 0)).cellT =
      setT (fun _ _ => CellType.wall) (2 * 0 + 1) (2 * 0 + 1)
        CellType.passage := rfl
  refine ⟨?_, ?_, ?_, ?_, rfl, ?_, ?_, ?_, ?_⟩
  · rw [hvis]
    exact Finset.mem_insert_self _ _
  · rw [hvis]
    intro q hq
    rcases Finset.mem_insert.mp hq with rfl | hq
    · exact ⟨hR, hC⟩
    · exact absurd hq (Finset.not_mem_empty q)
  · rw [hcell]
    intro a b hab ha1 ha2 hb1 hb2
    simp only [setT]
    rw [if_neg ?hne]
    case hne =>
      simp only [AdjRooms] at hab
      omega
    constructor
    · intro hc
      exact absurd hc (by decide)
    · rintro (hc | hc) <;> exact absurd hc (by simp)
  · intro q z h
    exact absurd h (by simp)
  · intro q hq hq0
    rw [hvis] at hq
    rcases Finset.mem_insert.mp hq with rfl | hq
    · exact absurd rfl hq0
    · exact absurd hq (Finset.not_mem_empty q)
  · intro q _
    rfl
  · intro q hq
    rw [hvis]
    simp
  · rw [hvis, hcell]
    have hz : openMids R C (setT (fun _ _ => CellType.wall) (2 * 0 + 1) (2 * 0 + 1)
        CellType.passage) = openMids R C (fun _ _ => CellType.wall) :=
      openMids_setT_room R C _ 0 0 _
    rw [hz]
    have h0 : openMids R C (fun _ _ => CellType.wall) = 0 := by
      unfold openMids
      rw [Finset.filter_false_of_mem]
      · rfl
      · intro w _ hc
        exact absurd hc (by decide : ¬(CellType.wall = CellType.passage))
    rw [h0]
    decide

theorem carveDirs_inv (R C : Nat) (rng : Nat → Nat) (fuel : Nat)
    (ihf : ∀ (st : CarveSt) (p : Nat × Nat)
      (pr : Nat × Nat → Option (Nat × Nat)) (rk : Nat × Nat → Nat),
      p.1 < R → p.2 < C → p ∉ st.vis →
      unvisRC R C st.vis ≤ fuel → CarveInv R C (markRoom st p) pr rk →
      ∃ pr2 rk2, CarveInv R C (carveFrom R C rng fuel st p) pr2 rk2 ∧
        st.vis ⊆ (carveFrom R C rng fuel st p).vis ∧
        p ∈ (carveFrom R C rng fuel st p).vis ∧
        NewClosed R C st.vis (carveFrom R C rng fuel st p).vis) :
    ∀ (ds : List (Int × Int)) (st : CarveSt) (p : Nat × Nat)
      (pr : Nat × Nat → Option (Nat × Nat)) (rk : Nat × Nat → Nat),
      (∀ d ∈ ds, d ∈ dirs0) → p ∈ st.vis → p.1 < R → p.2 < C →
      unvisRC R C st.vis ≤ fuel → CarveInv R C st pr rk →
      ∃ pr2 rk2, CarveInv R C (carveDirs R C rng fuel st p ds) pr2 rk2 ∧
        st.vis ⊆ (carveDirs R C rng fuel st p ds).vis ∧
        NewClosed R C st.vis (carveDirs R C rng fuel st p ds).vis ∧
        (∀ d ∈ ds, ∀ q : Nat × Nat, q.1 < R → q.2 < C →
          (q.1 : Int) = (p.1 : Int) + d.1 → (q.2 : Int) = (p.2 : Int) + d.2 →
          q ∈ (carveDirs R C rng fuel st p ds).vis) := by
  intro ds
  induction ds with
  | nil =>
      intro st p pr rk hds hp hp1 hp2 hfuel hinv
      refine ⟨pr, rk, hinv, Finset.Subset.refl _, ?_, ?_⟩
      · intro v hv hnv q hadj hq1 hq2
        exact absurd hv hnv
      · intro d hd
        exact absurd hd (List.not_mem_nil d)
  | cons d ds ihd =>
      intro st p pr rk hds hp hp1 hp2 hfuel hinv
      rw [carveDirs_cons]
      simp only [carveStep]
      by_cases hg : 0 ≤ (p.1 : Int) + d.1 ∧ (p.1 : Int) + d.1 < (R : Int) ∧
          0 ≤ (p.2 : Int) + d.2 ∧ (p.2 : Int) + d.2 < (C : Int) ∧
          (((p.1 : Int) + d.1).toNat, ((p.2 : Int) + d.2).toNat) ∉ st.vis
      · rw [if_pos hg]
        obtain ⟨hg0, hg1, hg2, hg3, hg4⟩ := hg
        have hn1 : ((p.1 : Int) + d.1).toNat < R := by omega
        have hn2 : ((p.2 : Int) + d.2).toNat < C := by omega
        have hdd : d ∈ dirs0 := hds d (List.mem_cons_self d ds)
        have hadj : AdjRooms p
            (((p.1 : Int) + d.1).toNat, ((p.2 : Int) + d.2).toNat) := by
          apply dir_adj p _ d hdd
          · show ((((p.1 : Int) + d.1).toNat : Nat) : Int) = (p.1 : Int) + d.1
            omega
          · show ((((p.2 : Int) + d.2).toNat : Nat) : Int) = (p.2 : Int) + d.2
            omega
        have hw1 : ((2 * p.1 + 1 : Int) + d.1).toNat =
            p.1 + ((p.1 : Int) + d.1).toNat + 1 := by omega
        have hw2 : ((2 * p.2 + 1 : Int) + d.2).toNat =
            p.2 + ((p.2 : Int) + d.2).toNat + 1 := by omega
        rw [hw1, hw2]
        obtain ⟨pr2, rk2, hinv2, hsub2, hmem2, hcl2⟩ :=
          ihf { st with cellT := (setT st.cellT
              (p.1 + ((p.1 : Int) + d.1).toNat + 1)
              (p.2 + ((p.2 : Int) + d.2).toNat + 1) CellType.passage) }
            (((p.1 : Int) + d.1).toNat, ((p.2 : Int) + d.2).toNat)
            (fun x => if x = (((p.1 : Int) + d.1).toNat,
              ((p.2 : Int) + d.2).toNat) then some p else pr x)
            (fun x => if x = (((p.1 : Int) + d.1).toNat,
              ((p.2 : Int) + d.2).toNat) then st.vis.card else rk x)
            hn1 hn2 hg4 hfuel
            (carveInv_extend R C st p
              (((p.1 : Int) + d.1).toNat, ((p.2 : Int) + d.2).toNat)
              pr rk hinv hp hg4 hadj hn1 hn2)
        obtain ⟨pr3, rk3, hinv3, hsub3, hcl3, hdall3⟩ :=
          ihd (carveFrom R C rng fuel
              { st with cellT := (setT st.cellT
                (p.1 + ((p.1 : Int) + d.1).toNat + 1)
                (p.2 + ((p.2 : Int) + d.2).toNat + 1) CellType.passage) }
              (((p.1 : Int) + d.1).toNat, ((p.2 : Int) + d.2).toNat))
            p pr2 rk2
            (fun d2 hd2 => hds d2 (List.mem_cons_of_mem d hd2))
            (hsub2 hp) hp1 hp2
            (le_trans (unvisRC_mono R C _ _ hsub2) hfuel)
            hinv2
        refine ⟨pr3, rk3, hinv3, ?_, ?_, ?_⟩
        · exact Finset.Subset.trans hsub2 hsub3
        · exact newClosed_trans R C st.vis _ _ hsub3 hcl2 hcl3
        · intro d2 hd2 q hq1 hq2 he1 he2
          rcases List.mem_cons.mp hd2 with rfl | hd2
          · have hqa : q.1 = ((p.1 : Int) + d2.1).toNat := by omega
            have hqb : q.2 = ((p.2 : Int) + d2.2).toNat := by omega
            have hqn : q = (((p.1 : Int) + d2.1).toNat,
                ((p.2 : Int) + d2.2).toNat) := Prod.ext_iff.mpr ⟨hqa, hqb⟩
            rw [hqn]
            exact hsub3 hmem2
          · exact hdall3 d2 hd2 q hq1 hq2 he1 he2
      · rw [if_neg hg]
        obtain ⟨pr3, rk3, hinv3, hsub3, hcl3, hdall3⟩ :=
          ihd st p pr rk
            (fun d2 hd2 => hds d2 (List.mem_cons_of_mem d hd2))
            hp hp1 hp2 hfuel hinv
        refine ⟨pr3, rk3, hinv3, hsub3, hcl3, ?_⟩
        intro d2 hd2 q hq1 hq2 he1 he2
        rcases List.mem_cons.mp hd2 with rfl | hd2
        · have hq : q ∈ st.vis := by
            by_contra hqv
            apply hg
            refine ⟨by omega, by omega, by omega, by omega, ?_⟩
            have hqa : ((p.1 : Int) + d2.1).toNat = q.1 := by omega
            have hqb : ((p.2 : Int) + d2.2).toNat = q.2 := by omega
            have hqn : (((p.1 : Int) + d2.1).toNat,
                ((p.2 : Int) + d2.2).toNat) = q := Prod.ext_iff.mpr ⟨hqa, hqb⟩
            rw [hqn]
            exact hqv
          exact hsub3 hq
        · exact hdall3 d2 hd2 q hq1 hq2 he1 he2

theorem carveFrom_inv (R C : Nat) (rng : Nat → Nat) :
    ∀ (fuel : Nat) (st : CarveSt) (p : Nat × Nat)
      (pr : Nat × Nat → Option (Nat × Nat)) (rk : Nat × Nat → Nat),
      p.1 < R → p.2 < C → p ∉ st.vis → unvisRC R C st.vis ≤ fuel →
      CarveInv R C (markRoom st p) pr rk →
      ∃ pr2 rk2, CarveInv R C (carveFrom R C rng fuel st p) pr2 rk2 ∧
        st.vis ⊆ (carveFrom R C rng fuel st p).vis ∧
        p ∈ (carveFrom R C rng fuel st p).vis ∧
        NewClosed R C st.vis (carveFrom R C rng fuel st p).vis := by
  intro fuel
  induction fuel with
  | zero =>
      intro st p pr rk hp1 hp2 hpv hfuel hinv
      exfalso
      have := unvisRC_pos R C st.vis p hp1 hp2 hpv
      omega
  | succ fuel ih =>
      intro st p pr rk hp1 hp2 hpv hfuel hinv
      rw [carveFrom_succ]
      have hfuel1 : unvisRC R C (insert p st.vis) ≤ fuel := by
        have := unvisRC_insert R C st.vis p hp1 hp2 hpv
        omega
      have hinv1 : CarveInv R C { markRoom st p with
          ctr := (shuffleDirs rng (markRoom st p).ctr).2 } pr rk :=
        carveInv_congr R C (markRoom st p) _ pr rk rfl rfl hinv
      obtain ⟨pr3, rk3, hinv3, hsub3, hcl3, hdall3⟩ :=
        carveDirs_inv R C rng fuel ih
          ((shuffleDirs rng (markRoom st p).ctr).1)
          { markRoom st p with ctr := (shuffleDirs rng (markRoom st p).ctr).2 }
          p pr rk
          (shuffleDirs_mem rng (markRoom st p).ctr).1
          (Finset.mem_insert_self p st.vis)
          hp1 hp2 hfuel1 hinv1
      refine ⟨pr3, rk3, hinv3, ?_, ?_, ?_⟩
      · intro x hx
        exact hsub3 (Finset.mem_insert_of_mem hx)
      · exact hsub3 (Finset.mem_insert_self p st.vis)
      · intro v hv hnv q hadj hq1 hq2
        by_cases hvp : v = p
        · obtain ⟨dd, hdd, he1, he2⟩ := adj_dir p q (hvp ▸ hadj)
          exact hdall3 dd
            ((shuffleDirs_mem rng (markRoom st p).ctr).2 dd hdd)
            q hq1 hq2 he1 he2
        · have hnv1 : v ∉ insert p st.vis := by
            intro hmem
            rcases Finset.mem_insert.mp hmem with he | he
            · exact hvp he
            · exact hnv he
          exact hcl3 v hv hnv1 q hadj hq1 hq2

theorem carve_full (R C : Nat) (rng : Nat → Nat) (hR : 0 < R) (hC : 0 < C) :
    ∃ pr2 rk2,
      CarveInv R C (carveFrom R C rng (R * C) initCarveSt (0, 0)) pr2 rk2 ∧
      ∀ q : Nat × Nat, q.1 < R → q.2 < C →
        q ∈ (carveFrom R C rng (R * C) initCarveSt (0, 0)).vis := by
  obtain ⟨pr2, rk2, hinv, hsub, hmem, hcl⟩ :=
    carveFrom_inv R C rng (R * C) initCarveSt (0, 0) (fun _ => none)
      (fun _ => 0) hR hC (Finset.not_mem_empty _)
      (le_of_eq (unvisRC_empty R C))
      (carveInv_init R C hR hC)
  refine ⟨pr2, rk2, hinv, ?_⟩
  have hstep : ∀ v, v ∈ (carveFrom R C rng (R * C) initCarveSt (0, 0)).vis →
      ∀ q : Nat × Nat, AdjRooms v q → q.1 < R → q.2 < C →
        q ∈ (carveFrom R C rng (R * C) initCarveSt (0, 0)).vis := by
    intro v hv q hadj hq1 hq2
    exact hcl v hv (Finset.not_mem_empty v) q hadj hq1 hq2
  have key : ∀ s : Nat, ∀ q : Nat × Nat, q.1 + q.2 ≤ s → q.1 < R → q.2 < C →
      q ∈ (carveFrom R C rng (R * C) initCarveSt (0, 0)).vis := by
    intro s
    induction s with
    | zero =>
        intro q hq hq1 hq2
        have h1 : q.1 = 0 := by omega
        have h2 : q.2 = 0 := by omega
        have hq0 : q = (0, 0) := Prod.ext_iff.mpr ⟨h1, h2⟩
        rw [hq0]
        exact hmem
    | succ s ihs =>
        intro q hq hq1 hq2
        by_cases hle : q.1 + q.2 ≤ s
        · exact ihs q hle hq1 hq2
        · by_cases h1 : 0 < q.1
          · have hprev := ihs (q.1 - 1, q.2) (show q.1 - 1 + q.2 ≤ s by omega)
              (show q.1 - 1 < R by omega) hq2
            apply hstep _ hprev q
            · exact Or.inr ⟨rfl, Or.inl (show q.1 - 1 + 1 = q.1 by omega)⟩
            · exact hq1
            · exact hq2
          · have h2 : 0 < q.2 := by omega
            have hprev := ihs (q.1, q.2 - 1) (show q.1 + (q.2 - 1) ≤ s by omega)
              hq1 (show q.2 - 1 < C by omega)
            apply hstep _ hprev q
            · exact Or.inl ⟨rfl, Or.inl (show q.2 - 1 + 1 = q.2 by omega)⟩
            · exact hq1
            · exact hq2
  intro q hq1 hq2
  exact key (q.1 + q.2) q le_rfl hq1 hq2

theorem cons_ne_append_singleton {α : Type} (a : α) (t s : List α)
    (hn : (a :: t).Nodup) (ht : t ≠ []) : a :: t ≠ s ++ [a] := by
  intro heq
  cases s with
  | nil =>
      simp only [List.nil_append] at heq
      have h2 : t = [] := by
        injection heq with h1 h2
      exact ht h2
  | cons b s2 =>
      rw [List.cons_append] at heq
      injection heq with h1 h2
      have hmem : a ∈ t := by
        rw [h2]
        simp
      rcases List.nodup_cons.mp hn with ⟨hna, _⟩
      exact hna hmem

theorem graph_acyclic_of_parent {V : Type} [DecidableEq V] (G : SimpleGraph V)
    (P : V → V → Prop) (rk : V → Nat)
    (hadj : ∀ a b : V, G.Adj a b → P a b ∨ P b a)
    (hlt : ∀ a b : V, P a b → rk a < rk b)
    (hun : ∀ a a2 b : V, P a b → P a2 b → a = a2) :
    G.IsAcyclic := by
  intro v c hc
  have hvsup : v ∈ c.support := c.start_mem_support
  obtain ⟨m, hmF, hmaxF⟩ := Finset.exists_max_image c.support.toFinset rk
    ⟨v, List.mem_toFinset.mpr hvsup⟩
  have hm : m ∈ c.support := List.mem_toFinset.mp hmF
  have hmax : ∀ x ∈ c.support, rk x ≤ rk m :=
    fun x hx => hmaxF x (List.mem_toFinset.mpr hx)
  have hc2 : (c.rotate hm).IsCycle := hc.rotate hm
  have hsub : ∀ x ∈ (c.rotate hm).support, rk x ≤ rk m := by
    intro x hx
    rcases (SimpleGraph.Walk.mem_support_iff (c.rotate hm)).mp hx with rfl | hx2
    · exact le_rfl
    · have hrot := SimpleGraph.Walk.support_rotate c hm
      have hx3 : x ∈ c.support.tail := hrot.mem_iff.mp hx2
      exact hmax x (List.mem_of_mem_tail hx3)
  obtain ⟨u1, h1, q, hq⟩ : ∃ (u1 : V) (h1 : G.Adj m u1) (q : G.Walk u1 m),
      c.rotate hm = SimpleGraph.Walk.cons h1 q := by
    cases hcc : c.rotate hm with
    | nil => exact absurd hcc hc2.ne_nil
    | cons h q => exact ⟨_, h, q, rfl⟩
  rw [hq] at hc2 hsub
  have hu1 : rk u1 ≤ rk m := by
    apply hsub u1
    rw [SimpleGraph.Walk.support_cons]
    exact List.mem_cons_of_mem m q.start_mem_support
  have hpm1 : P u1 m := by
    rcases hadj m u1 h1 with hx | hx
    · exfalso
      have := hlt m u1 hx
      omega
    · exact hx
  obtain ⟨x, q2, h2, hconcat⟩ := SimpleGraph.Walk.exists_cons_eq_concat h1 q
  have hxle : rk x ≤ rk m := by
    apply hsub x
    rw [hconcat, SimpleGraph.Walk.support_concat, List.concat_eq_append]
    exact List.mem_append_left _ q2.end_mem_support
  have hpm2 : P x m := by
    rcases hadj x m h2 with hx2 | hx2
    · exact hx2
    · exfalso
      have := hlt m x hx2
      omega
  have hxu : x = u1 := hun x u1 m hpm2 hpm1
  have heq : (SimpleGraph.Walk.cons h1 q).edges =
      q2.edges ++ [Sym2.mk (x, m)] := by
    rw [hconcat, SimpleGraph.Walk.edges_concat, List.concat_eq_append]
  rw [SimpleGraph.Walk.edges_cons] at heq
  have hsym : (Sym2.mk ((x, m) : V × V)) = Sym2.mk ((m, u1) : V × V) := by
    rw [hxu]
    exact Sym2.eq_swap
  rw [hsym] at heq
  have hnd : (Sym2.mk ((m, u1) : V × V) :: q.edges).Nodup := by
    have h4 := hc2.edges_nodup
    rw [SimpleGraph.Walk.edges_cons] at h4
    exact h4
  have htne : q.edges ≠ [] := by
    have h3 := hc2.three_le_length
    rw [SimpleGraph.Walk.length_cons] at h3
    intro he
    have h5 := SimpleGraph.Walk.length_edges q
    rw [he] at h5
    simp at h5
    omega
  exact cons_ne_append_singleton _ _ _ hnd htne heq

theorem generate_typeAt_carve (rng : Nat → Nat) (mazeRows mazeCols : Int)
    (r c : Nat) (hr : r < 2 * clampDim mazeRows + 1)
    (hc : c < 2 * clampDim mazeCols + 1)
    (hns : ¬(r = 1 ∧ c = 0))
    (hne : ¬(r = 2 * clampDim mazeRows + 1 - 2 ∧
      c = 2 * clampDim mazeCols + 1 - 1)) :
    typeAt (generatePerfectMaze rng mazeRows mazeCols) r c =
      some ((carveFrom (clampDim mazeRows) (clampDim mazeCols) rng
        (clampDim mazeRows * clampDim mazeCols) initCarveSt (0, 0)).cellT r c) := by
  rw [generate_typeAt rng mazeRows mazeCols r c hr hc]
  simp only [setT]
  rw [if_neg hne, if_neg hns]

/-- C5: for every pair of integer inputs and every random stream, the
generated maze's room-adjacency graph — rooms at odd-odd grid positions,
two rooms adjacent iff the wall cell between them is a passage — is a
tree (connected and acyclic), and exactly `R*C - 1` inter-room wall cells
hold a passage, `R`/`C` the clamped room dimensions. -/
theorem generate_spanning_tree (rng : Nat → Nat) (mazeRows mazeCols : Int) :
    (roomGraph (generatePerfectMaze rng mazeRows mazeCols)
      (clampDim mazeRows) (clampDim mazeCols)).IsTree ∧
    ((midPositions (clampDim mazeRows) (clampDim mazeCols)).filter
      (fun w => typeAt (generatePerfectMaze rng mazeRows mazeCols) w.1 w.2 =
        some CellType.passage)).card =
      clampDim mazeRows * clampDim mazeCols - 1 := by
  have hRb := clampDim_ge mazeRows
  have hCb := clampDim_ge mazeCols
  set R := clampDim mazeRows with hRdef
  set C := clampDim mazeCols with hCdef
  set g := generatePerfectMaze rng mazeRows mazeCols with hgdef
  set F := carveFrom R C rng (R * C) initCarveSt (0, 0) with hFdef
  have hR0 : 0 < R := by omega
  have hC0 : 0 < C := by omega
  obtain ⟨pr, rk, hinv, hfull⟩ := carve_full R C rng hR0 hC0
  rw [← hFdef] at hinv hfull
  have hmid : ∀ w ∈ midPositions R C,
      typeAt g w.1 w.2 = some (F.cellT w.1 w.2) := by
    intro w hw
    rw [mem_midPositions] at hw
    rcases hw with ⟨a, b, ha, hb, rfl⟩ | ⟨a, b, ha, hb, rfl⟩
    · exact generate_typeAt_carve rng mazeRows mazeCols (2 * a + 1) (2 * b + 2)
        (by omega) (by omega) (by omega) (by omega)
    · exact generate_typeAt_carve rng mazeRows mazeCols (2 * a + 2) (2 * b + 1)
        (by omega) (by omega) (by omega) (by omega)
  have hadjbr : ∀ a b : Fin R × Fin C,
      (roomGraph g R C).Adj a b ↔
        (AdjRooms (a.1.1, a.2.1) (b.1.1, b.2.1) ∧
          (pr (b.1.1, b.2.1) = some (a.1.1, a.2.1) ∨
           pr (a.1.1, a.2.1) = some (b.1.1, b.2.1))) := by
    intro a b
    constructor
    · rintro ⟨h1, h2⟩
      refine ⟨h1, ?_⟩
      have hmmem : ((a.1.1 + b.1.1 + 1, a.2.1 + b.2.1 + 1) : Nat × Nat) ∈
          midPositions R C :=
        mid_mem_midPositions R C (a.1.1, a.2.1) (b.1.1, b.2.1) h1
          a.1.isLt a.2.isLt b.1.isLt b.2.isLt
      have hm2 : typeAt g (a.1.1 + b.1.1 + 1) (a.2.1 + b.2.1 + 1) =
          some (F.cellT (a.1.1 + b.1.1 + 1) (a.2.1 + b.2.1 + 1)) :=
        hmid (a.1.1 + b.1.1 + 1, a.2.1 + b.2.1 + 1) hmmem
      rw [hm2] at h2
      have h3 : F.cellT (a.1.1 + b.1.1 + 1) (a.2.1 + b.2.1 + 1) =
          CellType.passage := Option.some.inj h2
      exact (hinv.hopen (a.1.1, a.2.1) (b.1.1, b.2.1) h1
        a.1.isLt a.2.isLt b.1.isLt b.2.isLt).mp h3
    · rintro ⟨h1, h2⟩
      refine ⟨h1, ?_⟩
      have hmmem : ((a.1.1 + b.1.1 + 1, a.2.1 + b.2.1 + 1) : Nat × Nat) ∈
          midPositions R C :=
        mid_mem_midPositions R C (a.1.1, a.2.1) (b.1.1, b.2.1) h1
          a.1.isLt a.2.isLt b.1.isLt b.2.isLt
      have hm2 : typeAt g (a.1.1 + b.1.1 + 1) (a.2.1 + b.2.1 + 1) =
          some (F.cellT (a.1.1 + b.1.1 + 1) (a.2.1 + b.2.1 + 1)) :=
        hmid (a.1.1 + b.1.1 + 1, a.2.1 + b.2.1 + 1) hmmem
      rw [hm2]
      have h3 : F.cellT (a.1.1 + b.1.1 + 1) (a.2.1 + b.2.1 + 1) =
          CellType.passage :=
        (hinv.hopen (a.1.1, a.2.1) (b.1.1, b.2.1) h1
          a.1.isLt a.2.isLt b.1.isLt b.2.isLt).mpr h2
      rw [h3]
  constructor
  · refine ⟨?_, ?_⟩
    · rw [SimpleGraph.connected_iff_exists_forall_reachable]
      refine ⟨(⟨0, hR0⟩, ⟨0, hC0⟩), ?_⟩
      have hstep : ∀ v : Fin R × Fin C,
          v ≠ (⟨0, hR0⟩, ⟨0, hC0⟩) →
          ∃ u : Fin R × Fin C, (roomGraph g R C).Adj u v ∧
            rk (u.1.1, u.2.1) < rk (v.1.1, v.2.1) := by
        intro v hv
        have hvmem : ((v.1.1, v.2.1) : Nat × Nat) ∈ F.vis :=
          hfull (v.1.1, v.2.1) v.1.isLt v.2.isLt
        have hv0 : ((v.1.1, v.2.1) : Nat × Nat) ≠ (0, 0) := by
          intro he
          apply hv
          have h1 : v.1.1 = 0 := congrArg Prod.fst he
          have h2 : v.2.1 = 0 := congrArg Prod.snd he
          refine Prod.ext_iff.mpr ⟨?_, ?_⟩
          · exact Fin.ext h1
          · exact Fin.ext h2
        rcases hpq : pr ((v.1.1, v.2.1) : Nat × Nat) with _ | u
        · exact absurd hpq (hinv.hprd _ hvmem hv0)
        · obtain ⟨hqv, huv, hadj2, hrk2⟩ := hinv.hprv (v.1.1, v.2.1) u hpq
          have hu1 : u.1 < R := (hinv.hvsub u huv).1
          have hu2 : u.2 < C := (hinv.hvsub u huv).2
          refine ⟨(⟨u.1, hu1⟩, ⟨u.2, hu2⟩), ?_, ?_⟩
          · rw [hadjbr]
            refine ⟨?_, Or.inl ?_⟩
            · exact hadj2
            · exact hpq
          · exact hrk2
      have key : ∀ n : Nat, ∀ v : Fin R × Fin C, rk (v.1.1, v.2.1) ≤ n →
          (roomGraph g R C).Reachable (⟨0, hR0⟩, ⟨0, hC0⟩) v := by
        intro n
        induction n with
        | zero =>
            intro v hv
            by_cases hvr : v = (⟨0, hR0⟩, ⟨0, hC0⟩)
            · rw [hvr]
            · obtain ⟨u, _, hrk2⟩ := hstep v hvr
              omega
        | succ n ihn =>
            intro v hv
            by_cases hvr : v = (⟨0, hR0⟩, ⟨0, hC0⟩)
            · rw [hvr]
            · obtain ⟨u, hadj3, hrk2⟩ := hstep v hvr
              exact SimpleGraph.Reachable.trans (ihn u (by omega))
                (SimpleGraph.Adj.reachable hadj3)
      intro w
      exact key (rk (w.1.1, w.2.1)) w le_rfl
    · apply graph_acyclic_of_parent (roomGraph g R C)
        (fun a b => pr (b.1.1, b.2.1) = some (a.1.1, a.2.1))
        (fun v => rk (v.1.1, v.2.1))
      · intro a b hab
        rw [hadjbr] at hab
        rcases hab.2 with hx | hx
        · exact Or.inl hx
        · exact Or.inr hx
      · intro a b hP
        exact (hinv.hprv (b.1.1, b.2.1) (a.1.1, a.2.1) hP).2.2.2
      · intro a a2 b hP1 hP2
        have he : ((a.1.1, a.2.1) : Nat × Nat) = (a2.1.1, a2.2.1) :=
          Option.some.inj (hP1.symm.trans hP2)
        have h1 : a.1.1 = a2.1.1 := congrArg Prod.fst he
        have h2 : a.2.1 = a2.2.1 := congrArg Prod.snd he
        exact Prod.ext_iff.mpr ⟨Fin.ext h1, Fin.ext h2⟩
  · have hviseq : F.vis = Finset.range R ×ˢ Finset.range C := by
      apply Finset.Subset.antisymm
      · intro q hq
        have h := hinv.hvsub q hq
        simp only [Finset.mem_product, Finset.mem_range]
        exact h
      · intro q hq
        simp only [Finset.mem_product, Finset.mem_range] at hq
        exact hfull q hq.1 hq.2
    have hcard : F.vis.card = R * C := by
      rw [hviseq, Finset.card_product]
      simp [Finset.card_range]
    have hfiltereq : (midPositions R C).filter
        (fun w => typeAt g w.1 w.2 = some CellType.passage) =
        (midPositions R C).filter
          (fun w => F.cellT w.1 w.2 = CellType.passage) := by
      apply Finset.filter_congr
      intro w hw
      rw [hmid w hw]
      constructor
      · intro h
        exact Option.some.inj h
      · intro h
        rw [h]
    have hdefn : openMids R C F.cellT = ((midPositions R C).filter
        (fun w => F.cellT w.1 w.2 = CellType.passage)).card := rfl
    have hopen3 : openMids R C F.cellT + 1 = R * C := by
      rw [hinv.hcnt]
      exact hcard
    rw [hfiltereq, ← hdefn]
    exact Nat.eq_sub_of_add_eq hopen3
